import Mathlib

/-!
Verification of the pbrt math kernel specification against the source in
`src/include/pbrt/math/` (vector.hpp, matrix.hpp, quaternion.hpp,
simd/simd_traits.hpp, constants.hpp, utility.hpp).

Modelling conventions, used uniformly below:

* Scalars of the C++ element types are modelled as `ℚ`.  The counterexample
  inputs are chosen so that every arithmetic step they exercise is exact in
  the C++ floating-point types as well (powers of two, small integers), so
  the rational model and the floating-point runs coincide on them.
* `std::sqrt` is modelled by `ratSqrt`, a fixed-point integer square root
  that is exact whenever the true square root is a multiple of `2 ^ (-60)`
  (in particular on the perfect squares used in the theorems) and clamps
  negative input to `0`.
* Claims about raw IEEE division by zero are modelled with the extended
  scalar type `Fx` (finite rational, two infinities, NaN), because a plain
  field sends `x / 0` to `0` and would hide exactly the Inf/NaN behaviour
  those claims are about.
* A `Vector<T, N>` value is a `List ℚ` of length `N`; a
  `Matrix<T, Rows, Cols>` value is its row-major flat buffer, a `List ℚ` of
  length `Rows * Cols`, exactly the `std::array<T, Rows * Cols>` of the
  source, accessed through `Matrix.index row col = row * Cols + col`.
* Each `PBRT_ASSERT_MSG(cond, ...)` is modelled as the proposition `cond`;
  a `Prop`-valued definition named `...Assert` collects the assertions
  executed on one public access path, in execution order.
* `std::sin`, `std::cos`, `std::acos` are opaque library routines; the
  quaternion code is parameterised over a `TrigModel` carrying them, and
  theorems assume only the identities a correct implementation satisfies at
  the points actually used.
-/

namespace pbrt.math

set_option maxRecDepth 8000

/-- Fuel-driven integer square root (binary method): `intSqrtFuel f n` is
`Nat.sqrt n` whenever `4 ^ f > n`.  Structural recursion on the fuel keeps
it kernel-computable. -/
def intSqrtFuel : ℕ → ℕ → ℕ
  | 0, _ => 0
  | f + 1, n =>
    if n < 2 then n
    else
      let r := 2 * intSqrtFuel f (n / 4)
      if (r + 1) * (r + 1) ≤ n then r + 1 else r

/-- Integer square root with enough fuel for all inputs below `4 ^ 64`. -/
def intSqrt (n : ℕ) : ℕ := intSqrtFuel 64 n

/-- Model of `std::sqrt` on the rational scalar model: the square root
computed to a fixed point of `60` binary digits, exact on the perfect
squares appearing below; negative input is sent to `0` (`std::sqrt` would
produce NaN there, but the kernel only ever applies it to sums of
squares). -/
def ratSqrt (q : ℚ) : ℚ :=
  if q ≤ 0 then 0 else (intSqrt (Int.floor (q * 4 ^ 60)).toNat : ℚ) / 2 ^ 60

/-- `EPSILON<T>` of `constants.hpp` (line 35): the practical comparison
epsilon `1e-6`, for both element types. -/
def EPSILON : ℚ := 1 / 10 ^ 6

/-- `PRECISION_EPSILON<T>` of `constants.hpp` (line 43): the high-precision
epsilon `1e-10`, for both element types. -/
def PRECISION_EPSILON : ℚ := 1 / 10 ^ 10

/-- Modelled from the spec: `safe_divide` is called by
`Vector::operator/=` (vector.hpp lines 313 and 329) but its definition is
not among the repository's files; the spec defines the scalar safe-divide
policy as `x / 0 == 0` and ordinary division otherwise. -/
def safe_divide (x y : ℚ) : ℚ := if y = 0 then 0 else x / y

namespace Vector

/-- `Vector::dot` (vector.hpp line 513): the general path accumulates
`std::inner_product(cbegin(), cend(), other.cbegin(), T{0})` in index
order; the unrolled `N ≤ 4` branches compute the same left-to-right sum. -/
def dot (a b : List ℚ) : ℚ := (List.zipWith (· * ·) a b).foldl (· + ·) 0

/-- `Vector::length_squared` (vector.hpp line 545): `dot(*this)`. -/
def length_squared (v : List ℚ) : ℚ := dot v v

/-- `Vector::length` (vector.hpp line 555): `std::sqrt(length_squared())`. -/
def length (v : List ℚ) : ℚ := ratSqrt (length_squared v)

/-- `Vector::operator/=(T const&)` (vector.hpp lines 325-333):
`m_data[i] = safe_divide(m_data[i], scalar)` for every component.
`operator/(T const&)` (lines 448-453) copies and delegates here. -/
def divScalar (v : List ℚ) (s : ℚ) : List ℚ := v.map (fun x => safe_divide x s)

/-- `Vector::operator/=(Vector const&)` (vector.hpp lines 309-317):
`m_data[i] = safe_divide(m_data[i], other.m_data[i])` component-wise.
`operator/(Vector const&)` (lines 435-440) copies and delegates here. -/
def divVector (v u : List ℚ) : List ℚ := List.zipWith safe_divide v u

/-- The assertion executed by `Vector::normalize` (vector.hpp line 593):
`PBRT_ASSERT_MSG(len > T{0}, "Cannot normalize a zero vector.")`. -/
def normalizeAssert (v : List ℚ) : Prop := length v > 0

/-- `Vector::normalize` (vector.hpp lines 589-595): computes
`len = length()`, asserts `len > 0` (modelled separately by
`normalizeAssert`, compiled away outside debug builds), and returns
`*this /= len` — there is no epsilon test and no zero-vector fallback on
this path. -/
def normalize (v : List ℚ) : List ℚ := divScalar v (length v)

/-- `Vector::normalized` (vector.hpp lines 602-607): copies and calls
`normalize` on the copy. -/
def normalized (v : List ℚ) : List ℚ := normalize v

/-- `Vector::zero` (vector.hpp lines 794-797): the default-constructed
vector, all components zero. -/
def zero (n : ℕ) : List ℚ := List.replicate n 0

/-- `Vector::operator==` (vector.hpp lines 461-471): exact component-wise
comparison of the `N` stored components, no epsilon. -/
def beqVec (n : ℕ) (a b : List ℚ) : Bool :=
  (List.range n).all fun i => a.getD i 0 == b.getD i 0

/-- The assertion executed by `Vector::operator[]` (vector.hpp lines 79
and 91): `PBRT_ASSERT_MSG(index < N, "Vector index out of bounds.")`. -/
def subscriptAssert (n i : ℕ) : Prop := i < n

end Vector

/-- Extended scalar for the raw (unguarded) IEEE divisions of the
hardware-specialised paths: a finite value, the two infinities, or NaN.
The rational model cannot express those paths faithfully because `ℚ`
collapses `x / 0` to `0`. -/
inductive Fx where
  | fin (q : ℚ)
  | posInf
  | negInf
  | nan
deriving DecidableEq, Repr

namespace Fx

/-- IEEE-754 division on `Fx` (divisors written in the source are the
positive literal `T{0}`, i.e. `+0`): a nonzero finite value divided by zero
gives the correspondingly signed infinity, `0 / 0` gives NaN, a finite
value divided by an infinity gives `0`, and NaN propagates. -/
def div : Fx → Fx → Fx
  | fin a, fin b =>
    if b = 0 then (if a = 0 then nan else if 0 < a then posInf else negInf)
    else if b < 0 then
      (if a = 0 then fin 0 else fin (a / b))
    else fin (a / b)
  | fin _, posInf => fin 0
  | fin _, negInf => fin 0
  | posInf, fin b => if b < 0 then negInf else posInf
  | negInf, fin b => if b < 0 then posInf else negInf
  | posInf, posInf => nan
  | posInf, negInf => nan
  | negInf, posInf => nan
  | negInf, negInf => nan
  | nan, _ => nan
  | _, nan => nan

/-- A value the scalar-safe policy may produce: finite (neither an
infinity nor NaN). -/
def isFinite : Fx → Bool
  | fin _ => true
  | _ => false

end Fx

namespace Vec4f

/-- The specialisation `Vector<f32, 4>::operator/=(f32 const&)`
(vector.hpp lines 1501-1520): the SSE4.2 branch is one `_mm_div_ps` and
the `#else` branch is the plain loop `m_data[i] /= scalar` — both are raw
lane-wise IEEE divisions with no `safe_divide` and no zero guard, modelled
here on `Fx`.  The sibling `operator/=(Vector const&)` (lines 1481-1499)
divides lane-wise the same way. -/
def divScalar (v : List Fx) (s : Fx) : List Fx := v.map (fun x => Fx.div x s)

end Vec4f

namespace Mat4f

/-- The specialisation `Matrix<f32, 4, 4>::operator/=(f32 const&)`
(matrix.hpp lines 1330-1352): four `_mm_div_ps` over the sixteen
row-major elements on the SSE4.2 branch, the raw loop `m_data[i] /= scalar`
on the `#else` branch — in both cases an unguarded IEEE division of every
element, with no `scalar == 0` test (unlike the generic
`Matrix::operator/=`). -/
def divScalar (m : List Fx) (s : Fx) : List Fx := m.map (fun x => Fx.div x s)

/-- The 4x4 float identity matrix (`Matrix<f32, 4, 4>::identity()`) as a
flat `Fx` buffer. -/
def identityFx : List Fx :=
  [Fx.fin 1, Fx.fin 0, Fx.fin 0, Fx.fin 0,
   Fx.fin 0, Fx.fin 1, Fx.fin 0, Fx.fin 0,
   Fx.fin 0, Fx.fin 0, Fx.fin 1, Fx.fin 0,
   Fx.fin 0, Fx.fin 0, Fx.fin 0, Fx.fin 1]

end Mat4f

namespace Matrix

/-- `Matrix::index` (matrix.hpp line 893): the row-major flat index
`row * Cols + col`. -/
def index (cols row col : ℕ) : ℕ := row * cols + col

/-- Reading element `(row, col)` of the flat buffer, as
`Matrix::operator()` does via `m_data[index(row, col)]` (matrix.hpp
lines 85-103). -/
def mget (cols : ℕ) (m : List ℚ) (row col : ℕ) : ℚ := m.getD (index cols row col) 0

/-- Writing element `(row, col)` of the flat buffer (the assignment
`(*this)(row, col) = value` of the source loops). -/
def mset (cols : ℕ) (m : List ℚ) (row col : ℕ) (v : ℚ) : List ℚ :=
  m.set (index cols row col) v

/-- The assertion written inside `Matrix::operator()` itself (matrix.hpp
lines 87 and 101): `PBRT_ASSERT_MSG(row < Rows || col < Cols, ...)` — note
the disjunction in the source. -/
def parenAssert (rows cols row col : ℕ) : Prop := row < rows ∨ col < cols

/-- The assertion inside the private `Matrix::index` (matrix.hpp
line 892): `PBRT_ASSERT_MSG(row < Rows && col < Cols, ...)`. -/
def indexAssert (rows cols row col : ℕ) : Prop := row < rows ∧ col < cols

/-- All assertions executed by a call to `Matrix::operator()(row, col)`,
in order: its own disjunctive check, then the conjunctive check of
`index(row, col)` which it always calls. -/
def parenPathAssert (rows cols row col : ℕ) : Prop :=
  parenAssert rows cols row col ∧ indexAssert rows cols row col

/-- All assertions executed by a call to `Matrix::at(row, col)`
(matrix.hpp lines 113-131): its own disjunctive check, then the full
`operator()` path. -/
def atPathAssert (rows cols row col : ℕ) : Prop :=
  parenAssert rows cols row col ∧ parenPathAssert rows cols row col

/-- `Matrix::zero` / the default constructor: the flat buffer of
`rows * cols` zero elements. -/
def zero (rows cols : ℕ) : List ℚ := List.replicate (rows * cols) 0

/-- `Matrix::operator==` (matrix.hpp lines 450-460): exact element-wise
comparison of the `size() = Rows * Cols` stored elements, no epsilon. -/
def beqMat (size : ℕ) (a b : List ℚ) : Bool :=
  (List.range size).all fun i => a.getD i 0 == b.getD i 0

/-- `Matrix::operator/=(T const&)` (matrix.hpp lines 254-266): if the
scalar compares equal to zero the matrix is returned unchanged (the
`[[unlikely]]` early return), otherwise every element is divided.
`operator/` (lines 437-442) copies and delegates here. -/
def divScalar (m : List ℚ) (s : ℚ) : List ℚ :=
  if s = 0 then m else m.map (fun x => x / s)

/-- `Matrix::transpose` (matrix.hpp lines 499-510): a zero-initialised
`Matrix<T, Cols, Rows>` filled by `result(j, i) = (*this)(i, j)` with `i`
the outer and `j` the inner loop. -/
def transpose (rows cols : ℕ) (m : List ℚ) : List ℚ :=
  (List.range rows).foldl
    (fun acc i =>
      (List.range cols).foldl (fun acc2 j => mset rows acc2 j i (mget cols m i j)) acc)
    (zero cols rows)

/-- `Matrix::multiply_naive` (matrix.hpp lines 924-946): the triple loop
`result(i, j) = Σ_k (*this)(i, k) * other(k, j)`, `k` accumulated in
increasing order from `T{0}`. -/
def multiply_naive (rows cols ocols : ℕ) (a b : List ℚ) : List ℚ :=
  (List.range rows).foldl
    (fun acc i =>
      (List.range ocols).foldl
        (fun acc2 j =>
          mset ocols acc2 i j
            ((List.range cols).foldl
              (fun sum k => sum + mget cols a i k * mget ocols b k j) 0))
        acc)
    (zero rows ocols)

/-- `Matrix::multiply_block` (matrix.hpp lines 948-972): for the block at
`(ii, jj, kk)` and block size `bs`, every `result(i, j)` with
`ii ≤ i < min (ii+bs) rows`, `jj ≤ j < min (jj+bs) ocols` is replaced by
`result(i, j) + Σ_{kk ≤ k < min (kk+bs) cols} (*this)(i, k) * other(k, j)`,
the inner sum seeded with the current `result(i, j)`. -/
def multiply_block (rows cols ocols : ℕ) (a b : List ℚ) (ii jj kk bs : ℕ)
    (res : List ℚ) : List ℚ :=
  (List.range (min (ii + bs) rows - ii)).foldl
    (fun acc di =>
      (List.range (min (jj + bs) ocols - jj)).foldl
        (fun acc2 dj =>
          mset ocols acc2 (ii + di) (jj + dj)
            ((List.range (min (kk + bs) cols - kk)).foldl
              (fun sum dk =>
                sum + mget cols a (ii + di) (kk + dk) * mget ocols b (kk + dk) (jj + dj))
              (mget ocols acc2 (ii + di) (jj + dj))))
        acc)
    res

/-- `Matrix::multiply_blocked` (matrix.hpp lines 903-922): block size 32,
blocks visited with `ii` outer, `jj` middle, `kk` inner, each step
delegating to `multiply_block`; the C++ loops `for (x = 0; x < n; x += 32)`
run `⌈n / 32⌉` times. -/
def multiply_blocked (rows cols ocols : ℕ) (a b : List ℚ) : List ℚ :=
  (List.range ((rows + 31) / 32)).foldl
    (fun acc ti =>
      (List.range ((ocols + 31) / 32)).foldl
        (fun acc2 tj =>
          (List.range ((cols + 31) / 32)).foldl
            (fun acc3 tk =>
              multiply_block rows cols ocols a b (32 * ti) (32 * tj) (32 * tk) 32 acc3)
            acc2)
        acc)
    (zero rows ocols)

/-- The dispatch of `Matrix::operator*(Matrix const&)` (matrix.hpp
lines 414-426): the blocked algorithm iff
`Rows > 8 && Cols > 8 && OtherCols > 8`, the naive one otherwise. -/
def usesBlocked (rows cols ocols : ℕ) : Bool :=
  decide (8 < rows) && decide (8 < cols) && decide (8 < ocols)

/-- `Matrix::operator*(Matrix const&)` (matrix.hpp lines 414-426). -/
def matMul (rows cols ocols : ℕ) (a b : List ℚ) : List ℚ :=
  if usesBlocked rows cols ocols then multiply_blocked rows cols ocols a b
  else multiply_naive rows cols ocols a b

/-- Proof-side abbreviation: the partial products sum
`Σ_{d < len} a(i, k0+d) * b(k0+d, j)` accumulated left to right from `0`,
the quantity the blocked and naive loops both build up. -/
def kSum (cols ocols : ℕ) (a b : List ℚ) (i j k0 len : ℕ) : ℚ :=
  (List.range len).foldl
    (fun s dk => s + mget cols a i (k0 + dk) * mget ocols b (k0 + dk) j) 0

/-- The pivot search of the elimination loops (matrix.hpp lines 571-582
and 1116-1127): starting from `(i, |m(i, i)|)`, scan `k = i+1, …, n-1` and
keep the first row attaining the strictly largest `|m(k, i)|`; returns
`(pivotRow, maxVal)`. -/
def pivotSearch (cols : ℕ) (m : List ℚ) (i n : ℕ) : ℕ × ℚ :=
  (List.range (n - (i + 1))).foldl
    (fun st dk =>
      let k := i + 1 + dk
      let v := |mget cols m k i|
      if v > st.2 then (k, v) else st)
    (i, |mget cols m i i|)

/-- The row swap of the elimination loops (matrix.hpp lines 589-596 and
1134-1140): `std::swap` of the two rows, column by column. -/
def swapRows (cols : ℕ) (m : List ℚ) (r1 r2 : ℕ) : List ℚ :=
  (List.range cols).foldl
    (fun acc j =>
      let a := mget cols acc r1 j
      let b := mget cols acc r2 j
      mset cols (mset cols acc r1 j b) r2 j a)
    m

/-- One step `i` of the LU determinant loop (matrix.hpp lines 569-608):
pivot search, the singular early-return when `maxVal < PRECISION_EPSILON`
(strict `<` in this loop), the conditional row swap with sign flip,
`det *= lu(i, i)`, then elimination of rows `k > i` on columns `j > i`. -/
def detLUStep (n : ℕ) (st : List ℚ × ℚ) (i : ℕ) : Option (List ℚ × ℚ) :=
  let lu := st.1
  let p := pivotSearch n lu i n
  if p.2 < PRECISION_EPSILON then none
  else
    let lu1 := if p.1 ≠ i then swapRows n lu i p.1 else lu
    let det1 := if p.1 ≠ i then -st.2 else st.2
    let det2 := det1 * mget n lu1 i i
    let lu2 :=
      (List.range (n - (i + 1))).foldl
        (fun acc dk =>
          let k := i + 1 + dk
          let factor := mget n acc k i / mget n acc i i
          (List.range (n - (i + 1))).foldl
            (fun acc2 dj =>
              let j := i + 1 + dj
              mset n acc2 k j (mget n acc2 k j - factor * mget n acc2 i j))
            acc)
        lu1
    some (lu2, det2)

/-- The `Rows > 4` branch of `Matrix::determinant` (matrix.hpp
lines 566-610): partial-pivoted elimination on a copy, accumulating the
product of pivots and the swap signs; the early `return T{0}` on a
too-small pivot column is modelled by the `Option` state collapsing to
`0` at the end. -/
def detLU (n : ℕ) (m : List ℚ) : ℚ :=
  match (List.range n).foldl
      (fun st i => st.bind (fun s => detLUStep n s i)) (some (m, 1)) with
  | none => 0
  | some s => s.2

/-- `Matrix::determinant` (matrix.hpp lines 517-611): closed forms for
sizes 1 to 4 (the size-4 branch is the 24-term permanent-signed sum
written in the source), pivoted elimination beyond. -/
def determinant (n : ℕ) (m : List ℚ) : ℚ :=
  if n = 1 then mget 1 m 0 0
  else if n = 2 then mget 2 m 0 0 * mget 2 m 1 1 - mget 2 m 0 1 * mget 2 m 1 0
  else if n = 3 then
    mget 3 m 0 0 * (mget 3 m 1 1 * mget 3 m 2 2 - mget 3 m 1 2 * mget 3 m 2 1) -
      mget 3 m 0 1 * (mget 3 m 1 0 * mget 3 m 2 2 - mget 3 m 1 2 * mget 3 m 2 0) +
      mget 3 m 0 2 * (mget 3 m 1 0 * mget 3 m 2 1 - mget 3 m 1 1 * mget 3 m 2 0)
  else if n = 4 then
    let a00 := mget 4 m 0 0
    let a01 := mget 4 m 0 1
    let a02 := mget 4 m 0 2
    let a03 := mget 4 m 0 3
    let a10 := mget 4 m 1 0
    let a11 := mget 4 m 1 1
    let a12 := mget 4 m 1 2
    let a13 := mget 4 m 1 3
    let a20 := mget 4 m 2 0
    let a21 := mget 4 m 2 1
    let a22 := mget 4 m 2 2
    let a23 := mget 4 m 2 3
    let a30 := mget 4 m 3 0
    let a31 := mget 4 m 3 1
    let a32 := mget 4 m 3 2
    let a33 := mget 4 m 3 3
    a03 * a12 * a21 * a30 - a02 * a13 * a21 * a30 - a03 * a11 * a22 * a30 +
      a01 * a13 * a22 * a30 + a02 * a11 * a23 * a30 - a01 * a12 * a23 * a30 -
      a03 * a12 * a20 * a31 + a02 * a13 * a20 * a31 + a03 * a10 * a22 * a31 -
      a00 * a13 * a22 * a31 - a02 * a10 * a23 * a31 + a00 * a12 * a23 * a31 +
      a03 * a11 * a20 * a32 - a01 * a13 * a20 * a32 - a03 * a10 * a21 * a32 +
      a00 * a13 * a21 * a32 + a01 * a10 * a23 * a32 - a00 * a11 * a23 * a32 -
      a02 * a11 * a20 * a33 + a01 * a12 * a20 * a33 + a02 * a10 * a21 * a33 -
      a00 * a12 * a21 * a33 - a01 * a10 * a22 * a33 + a00 * a11 * a22 * a33
  else detLU n m

/-- `Matrix::inverse_1` (matrix.hpp lines 974-983): zero matrix when
`|det| ≤ PRECISION_EPSILON`, else the reciprocal. -/
def inverse_1 (m : List ℚ) : List ℚ :=
  let det := mget 1 m 0 0
  if |det| ≤ PRECISION_EPSILON then zero 1 1 else [1 / det]

/-- `Matrix::inverse_2` (matrix.hpp lines 985-1000). -/
def inverse_2 (m : List ℚ) : List ℚ :=
  let a := mget 2 m 0 0
  let b := mget 2 m 0 1
  let c := mget 2 m 1 0
  let d := mget 2 m 1 1
  let det := a * d - b * c
  if |det| ≤ PRECISION_EPSILON then zero 2 2
  else
    let inverseDet := 1 / det
    [d * inverseDet, -b * inverseDet, -c * inverseDet, a * inverseDet]

/-- `Matrix::inverse_3` (matrix.hpp lines 1002-1035), translated exactly
as written: note that its guard determinant is
`m00 * c00 - m01 * c10 + m02 * c20`, pairing row-0 entries with the
cofactors `c10`, `c20` of column 0 — this differs from the
`Matrix::determinant` 3x3 formula (which pairs them with `c01`, `c02`)
whenever the matrix is not symmetric. -/
def inverse_3 (m : List ℚ) : List ℚ :=
  let m00 := mget 3 m 0 0
  let m01 := mget 3 m 0 1
  let m02 := mget 3 m 0 2
  let m10 := mget 3 m 1 0
  let m11 := mget 3 m 1 1
  let m12 := mget 3 m 1 2
  let m20 := mget 3 m 2 0
  let m21 := mget 3 m 2 1
  let m22 := mget 3 m 2 2
  let c00 := m11 * m22 - m12 * m21
  let c01 := m10 * m22 - m12 * m20
  let c02 := m10 * m21 - m11 * m20
  let c10 := m01 * m22 - m02 * m21
  let c11 := m00 * m22 - m02 * m20
  let c12 := m00 * m21 - m01 * m20
  let c20 := m01 * m12 - m02 * m11
  let c21 := m00 * m12 - m02 * m10
  let c22 := m00 * m11 - m01 * m10
  let det := m00 * c00 - m01 * c10 + m02 * c20
  if |det| ≤ PRECISION_EPSILON then zero 3 3
  else
    let inverseDet := 1 / det
    [c00 * inverseDet, -c10 * inverseDet, c20 * inverseDet,
     -c01 * inverseDet, c11 * inverseDet, -c21 * inverseDet,
     c02 * inverseDet, -c12 * inverseDet, c22 * inverseDet]

/-- `Matrix::inverse_4` (matrix.hpp lines 1037-1097): the 2x2-minor
(`s`/`c`) form of the determinant and adjugate. -/
def inverse_4 (m : List ℚ) : List ℚ :=
  let m00 := mget 4 m 0 0
  let m01 := mget 4 m 0 1
  let m02 := mget 4 m 0 2
  let m03 := mget 4 m 0 3
  let m10 := mget 4 m 1 0
  let m11 := mget 4 m 1 1
  let m12 := mget 4 m 1 2
  let m13 := mget 4 m 1 3
  let m20 := mget 4 m 2 0
  let m21 := mget 4 m 2 1
  let m22 := mget 4 m 2 2
  let m23 := mget 4 m 2 3
  let m30 := mget 4 m 3 0
  let m31 := mget 4 m 3 1
  let m32 := mget 4 m 3 2
  let m33 := mget 4 m 3 3
  let s0 := m00 * m11 - m01 * m10
  let s1 := m00 * m12 - m02 * m10
  let s2 := m00 * m13 - m03 * m10
  let s3 := m01 * m12 - m02 * m11
  let s4 := m01 * m13 - m03 * m11
  let s5 := m02 * m13 - m03 * m12
  let c5 := m22 * m33 - m23 * m32
  let c4 := m21 * m33 - m23 * m31
  let c3 := m21 * m32 - m22 * m31
  let c2 := m20 * m33 - m23 * m30
  let c1 := m20 * m32 - m22 * m30
  let c0 := m20 * m31 - m21 * m30
  let det := s0 * c5 - s1 * c4 + s2 * c3 + s3 * c2 - s4 * c1 + s5 * c0
  if |det| ≤ PRECISION_EPSILON then zero 4 4
  else
    let inverseDet := 1 / det
    [(m11 * c5 - m12 * c4 + m13 * c3) * inverseDet,
     (-m01 * c5 + m02 * c4 - m03 * c3) * inverseDet,
     (m31 * s5 - m32 * s4 + m33 * s3) * inverseDet,
     (-m21 * s5 + m22 * s4 - m23 * s3) * inverseDet,
     (-m10 * c5 + m12 * c2 - m13 * c1) * inverseDet,
     (m00 * c5 - m02 * c2 + m03 * c1) * inverseDet,
     (-m30 * s5 + m32 * s2 - m33 * s1) * inverseDet,
     (m20 * s5 - m22 * s2 + m23 * s1) * inverseDet,
     (m10 * c4 - m11 * c2 + m13 * c0) * inverseDet,
     (-m00 * c4 + m01 * c2 - m03 * c0) * inverseDet,
     (m30 * s4 - m31 * s2 + m33 * s0) * inverseDet,
     (-m20 * s4 + m21 * s2 - m23 * s0) * inverseDet,
     (-m10 * c3 + m11 * c1 - m12 * c0) * inverseDet,
     (m00 * c3 - m01 * c1 + m02 * c0) * inverseDet,
     (-m30 * s3 + m31 * s1 - m32 * s0) * inverseDet,
     (m20 * s3 - m21 * s1 + m22 * s0) * inverseDet]

/-- One pivot step of `Matrix::inverse_n`'s Gauss-Jordan loop
(matrix.hpp lines 1114-1159) on the `n x 2n` augmented buffer: pivot
search in column `i` (early zero-matrix return when
`maxVal ≤ PRECISION_EPSILON`, non-strict in this loop), conditional row
swap, division of row `i` by its pivot, then elimination of every other
row. -/
def invNStep (n : ℕ) (aug : List ℚ) (i : ℕ) : Option (List ℚ) :=
  let cols2 := 2 * n
  let p := pivotSearch cols2 aug i n
  if p.2 ≤ PRECISION_EPSILON then none
  else
    let a1 := if p.1 ≠ i then swapRows cols2 aug i p.1 else aug
    let pivot := mget cols2 a1 i i
    let a2 :=
      (List.range cols2).foldl
        (fun acc j => mset cols2 acc i j (mget cols2 acc i j / pivot)) a1
    let a3 :=
      (List.range n).foldl
        (fun acc k =>
          if k ≠ i then
            let factor := mget cols2 acc k i
            (List.range cols2).foldl
              (fun acc2 j =>
                mset cols2 acc2 k j (mget cols2 acc2 k j - factor * mget cols2 acc2 i j))
              acc
          else acc)
        a2
    some a3

/-- `Matrix::inverse_n` (matrix.hpp lines 1100-1171): the augmented
`[m | I]` buffer, the Gauss-Jordan loop, and the extraction of the right
half; the early `return {}` on a too-small pivot column collapses the
`Option` state to the zero matrix. -/
def inverse_n (n : ℕ) (m : List ℚ) : List ℚ :=
  let cols2 := 2 * n
  let aug0 :=
    (List.range n).foldl
      (fun acc i =>
        (List.range n).foldl
          (fun acc2 j =>
            mset cols2 (mset cols2 acc2 i j (mget n m i j)) i (j + n)
              (if i = j then 1 else 0))
          acc)
      (zero n cols2)
  match (List.range n).foldl (fun st i => st.bind (fun a => invNStep n a i)) (some aug0) with
  | none => zero n n
  | some aug =>
    (List.range n).foldl
      (fun acc i =>
        (List.range n).foldl
          (fun acc2 j => mset n acc2 i j (mget cols2 aug i (j + n))) acc)
      (zero n n)

/-- `Matrix::inverse` (matrix.hpp lines 618-639): dispatch to the
closed-form sizes 1-4, `inverse_n` beyond. -/
def inverse (n : ℕ) (m : List ℚ) : List ℚ :=
  if n = 1 then inverse_1 m
  else if n = 2 then inverse_2 m
  else if n = 3 then inverse_3 m
  else if n = 4 then inverse_4 m
  else inverse_n n m

end Matrix

/-- A 128-bit float register (`__m128`): four scalar lanes, lane 0 the
lowest-addressed element of a `_mm_loadu_ps`. -/
structure Lane4 where
  l0 : ℚ
  l1 : ℚ
  l2 : ℚ
  l3 : ℚ
deriving DecidableEq, Repr

namespace Lane4

/-- `_mm_loadu_ps(&data[off])`: four consecutive elements of the flat
buffer. -/
def loadu (m : List ℚ) (off : ℕ) : Lane4 :=
  ⟨m.getD off 0, m.getD (off + 1) 0, m.getD (off + 2) 0, m.getD (off + 3) 0⟩

/-- `_mm_unpacklo_ps(a, b) = [a0, b0, a1, b1]`. -/
def unpacklo (a b : Lane4) : Lane4 := ⟨a.l0, b.l0, a.l1, b.l1⟩

/-- `_mm_unpackhi_ps(a, b) = [a2, b2, a3, b3]`. -/
def unpackhi (a b : Lane4) : Lane4 := ⟨a.l2, b.l2, a.l3, b.l3⟩

/-- `_mm_movelh_ps(a, b) = [a0, a1, b0, b1]`. -/
def movelh (a b : Lane4) : Lane4 := ⟨a.l0, a.l1, b.l0, b.l1⟩

/-- `_mm_movehl_ps(a, b) = [b2, b3, a2, a3]`. -/
def movehl (a b : Lane4) : Lane4 := ⟨b.l2, b.l3, a.l2, a.l3⟩

/-- `_mm_storeu_ps(&data[off], v)`: write the four lanes to consecutive
elements of the flat buffer. -/
def storeu (m : List ℚ) (off : ℕ) (v : Lane4) : List ℚ :=
  ((((m.set off v.l0).set (off + 1) v.l1).set (off + 2) v.l2).set (off + 3) v.l3)

end Lane4

namespace Mat4f

/-- The SSE4.2 branch of `Matrix<f32, 4, 4>::transpose` (matrix.hpp
lines 1494-1514): load the four rows, the `unpacklo`/`unpackhi` ×
`movelh`/`movehl` shuffle, store the four result rows into a
zero-initialised matrix. -/
def transposeSimd (m : List ℚ) : List ℚ :=
  let row0 := Lane4.loadu m 0
  let row1 := Lane4.loadu m 4
  let row2 := Lane4.loadu m 8
  let row3 := Lane4.loadu m 12
  let tmp0 := Lane4.unpacklo row0 row1
  let tmp1 := Lane4.unpacklo row2 row3
  let tmp2 := Lane4.unpackhi row0 row1
  let tmp3 := Lane4.unpackhi row2 row3
  let r := Matrix.zero 4 4
  let r := Lane4.storeu r 0 (Lane4.movelh tmp0 tmp1)
  let r := Lane4.storeu r 4 (Lane4.movehl tmp1 tmp0)
  let r := Lane4.storeu r 8 (Lane4.movelh tmp2 tmp3)
  Lane4.storeu r 12 (Lane4.movehl tmp3 tmp2)

end Mat4f

/-- The scalar element types of `types.hpp` over which the kernels are
instantiated. -/
inductive CType where
  | f32
  | f64
  | i8
  | i16
  | i32
  | i64
  | u8
  | u16
  | u32
  | u64
deriving DecidableEq, Repr

namespace simd_traits

/-- `alignof(T)` for each element type on the targeted platforms (equal
to `sizeof(T)` for these scalar types). -/
def alignofT : CType → ℕ
  | CType.f32 => 4
  | CType.f64 => 8
  | CType.i8 => 1
  | CType.i16 => 2
  | CType.i32 => 4
  | CType.i64 => 8
  | CType.u8 => 1
  | CType.u16 => 2
  | CType.u32 => 4
  | CType.u64 => 8

/-- `simd_traits<T, N>::kIsSimdCompatible` (simd_traits.hpp): `true` in
exactly the four explicit specialisations `<f32,4>`, `<f32,8>`, `<f64,2>`,
`<f64,4>` (lines 57-131), `false` in the primary template (line 14). -/
def kIsSimdCompatible : CType → ℕ → Bool
  | CType.f32, 4 => true
  | CType.f32, 8 => true
  | CType.f64, 2 => true
  | CType.f64, 4 => true
  | _, _ => false

/-- `simd_traits<T, N>::kAlignment`: 16 in the `<f32,4>` and `<f64,2>`
specialisations, 32 in `<f32,8>` and `<f64,4>`, `alignof(T)` in the
primary template (line 15). -/
def kAlignment : CType → ℕ → ℕ
  | CType.f32, 4 => 16
  | CType.f32, 8 => 32
  | CType.f64, 2 => 16
  | CType.f64, 4 => 32
  | t, _ => alignofT t

end simd_traits

/-- `Quaternion<T>` (quaternion.hpp): the four stored components
`m_components = {w, x, y, z}`. -/
structure Quat where
  w : ℚ
  x : ℚ
  y : ℚ
  z : ℚ
deriving DecidableEq, Repr

/-- The opaque transcendental routines `std::sin`, `std::cos`,
`std::acos` the quaternion kernel calls; theorems assume of them only the
identities a correct implementation satisfies at the points used. -/
structure TrigModel where
  sinF : ℚ → ℚ
  cosF : ℚ → ℚ
  acosF : ℚ → ℚ

namespace Quat

/-- The (absent) assertion of `Quaternion::operator[]` (quaternion.hpp
lines 85-99): the source accesses `m_components[index]` with no
`PBRT_ASSERT` of any form, so the executed assertion set is empty. -/
def subscriptAssert (_ : ℕ) : Prop := True

/-- `Quaternion::operator+` (quaternion.hpp lines 209-216, 263-268). -/
def add (a b : Quat) : Quat := ⟨a.w + b.w, a.x + b.x, a.y + b.y, a.z + b.z⟩

/-- `Quaternion::operator-` (quaternion.hpp lines 221-228, 273-278). -/
def sub (a b : Quat) : Quat := ⟨a.w - b.w, a.x - b.x, a.y - b.y, a.z - b.z⟩

/-- Unary `Quaternion::operator-` (quaternion.hpp lines 283-286). -/
def neg (a : Quat) : Quat := ⟨-a.w, -a.x, -a.y, -a.z⟩

/-- `Quaternion::operator*(T const&)` (quaternion.hpp lines 233-240,
291-296). -/
def smul (t : ℚ) (a : Quat) : Quat := ⟨a.w * t, a.x * t, a.y * t, a.z * t⟩

/-- The free `dot` on quaternions (quaternion.hpp lines 537-542). -/
def dot (a b : Quat) : ℚ := a.w * b.w + a.x * b.x + a.y * b.y + a.z * b.z

/-- `Quaternion::length_squared` (quaternion.hpp lines 354-358). -/
def length_squared (a : Quat) : ℚ := a.w * a.w + a.x * a.x + a.y * a.y + a.z * a.z

/-- `Quaternion::length` (quaternion.hpp lines 346-349):
`std::sqrt(length_squared())`. -/
def length (a : Quat) : ℚ := ratSqrt (length_squared a)

/-- `Quaternion::normalize` (quaternion.hpp lines 363-376): unchanged
when `length() ≤ EPSILON`, otherwise every component is scaled by
`1 / length()`; `normalized` (lines 381-386) copies and delegates here. -/
def normalized (a : Quat) : Quat :=
  let len := length a
  if len ≤ EPSILON then a
  else
    let invLen := 1 / len
    ⟨a.w * invLen, a.x * invLen, a.y * invLen, a.z * invLen⟩

/-- `Quaternion::approx_equal` (quaternion.hpp lines 334-341):
every component difference at most `epsilon` in absolute value. -/
def approx_equal (a b : Quat) (eps : ℚ) : Bool :=
  decide (|a.w - b.w| ≤ eps) && decide (|a.x - b.x| ≤ eps) &&
    decide (|a.y - b.y| ≤ eps) && decide (|a.z - b.z| ≤ eps)

/-- `Quaternion<float>::operator==` (quaternion.hpp lines 311-321):
`approx_equal(other, EPSILON<float>)`, i.e. tolerance `1e-6`. -/
def beqF (a b : Quat) : Bool := approx_equal a b EPSILON

/-- `Quaternion<double>::operator==` (quaternion.hpp lines 311-321):
`approx_equal(other, PRECISION_EPSILON<double>)`, i.e. tolerance
`1e-10`. -/
def beqD (a b : Quat) : Bool := approx_equal a b PRECISION_EPSILON

/-- The body of `slerp` after the sign adjustment (quaternion.hpp
lines 561-575), taking the already-adjusted `q2` and dot product: the
normalised-lerp branch when `dotProduct > 0.9995`, the `sin θ` formula
otherwise. -/
def slerpPost (tm : TrigModel) (q1 q2Adjusted : Quat) (dotProduct t : ℚ) : Quat :=
  if dotProduct > (9995 : ℚ) / 10 ^ 4 then
    normalized (add q1 (smul t (sub q2Adjusted q1)))
  else
    let theta0 := tm.acosF |dotProduct|
    let theta := theta0 * t
    let sinTheta := tm.sinF theta
    let sinTheta0 := tm.sinF theta0
    let s0 := tm.cosF theta - dotProduct * sinTheta / sinTheta0
    let s1 := sinTheta / sinTheta0
    add (smul s0 q1) (smul s1 q2Adjusted)

/-- The free `slerp` (quaternion.hpp lines 547-576): flip `q2` and the
dot product when `dot(q1, q2) < 0`, then proceed with the adjusted
values. -/
def slerp (tm : TrigModel) (q1 q2 : Quat) (t : ℚ) : Quat :=
  let d := dot q1 q2
  if d < 0 then slerpPost tm q1 (neg q2) (-d) t
  else slerpPost tm q1 q2 d t

/-- The sign-adjusted copy of `q2` that `slerp` interpolates towards. -/
def adjusted (q1 q2 : Quat) : Quat := if dot q1 q2 < 0 then neg q2 else q2

end Quat

/-- `STD_EPSILON<f32>` of `constants.hpp` (line 26):
`std::numeric_limits<float>::epsilon() = 2 ^ (-23)`, the machine epsilon
of the 32-bit element type. -/
def STD_EPSILON_F32 : ℚ := 1 / 2 ^ 23

/-- A trig model for counterexample runs that stay on the
normalised-lerp branch of `slerp`: that branch evaluates none of the
three functions, so their values are irrelevant to the result. -/
def unusedTrig : TrigModel := ⟨fun _ => 0, fun _ => 0, fun _ => 0⟩

/- ------------------------------------------------------------------ -/
/- Helper lemmas about the list representation.                        -/
/- ------------------------------------------------------------------ -/

theorem getD_set_ite {α : Type} (l : List α) (n m : ℕ) (v d : α) :
    (l.set n v).getD m d = if n = m ∧ n < l.length then v else l.getD m d := by
  induction l generalizing n m with
  | nil => simp [List.set]
  | cons a t ih =>
    cases n with
    | zero =>
      cases m with
      | zero => simp
      | succ m => simp
    | succ n =>
      cases m with
      | zero => simp
      | succ m =>
        simp only [List.set, List.getD_cons_succ, List.length_cons, ih]
        by_cases h : n = m ∧ n < t.length
        · rw [if_pos h, if_pos ⟨by omega, by omega⟩]
        · rw [if_neg h, if_neg (by omega)]

theorem getD_replicate {α : Type} (n m : ℕ) (a d : α) :
    (List.replicate n a).getD m d = if m < n then a else d := by
  induction n generalizing m with
  | zero => simp
  | succ n ih =>
    cases m with
    | zero => simp [List.replicate]
    | succ m => simpa [List.replicate] using ih m

theorem index_lt_of_lt {cols i j rows : ℕ} (hi : i < rows) (hj : j < cols) :
    Matrix.index cols i j < rows * cols := by
  have h1 : i * cols + j < (i + 1) * cols := by
    simpa [Nat.succ_mul] using Nat.add_lt_add_left hj (i * cols)
  have h2 : (i + 1) * cols ≤ rows * cols := Nat.mul_le_mul_right cols hi
  exact lt_of_lt_of_le h1 h2

theorem index_div_mod {cols : ℕ} (hc : 0 < cols) (i j : ℕ) (hj : j < cols) :
    Matrix.index cols i j / cols = i ∧ Matrix.index cols i j % cols = j := by
  unfold Matrix.index
  constructor
  · rw [Nat.add_comm, Nat.add_mul_div_right _ _ hc, Nat.div_eq_of_lt hj, Nat.zero_add]
  · rw [Nat.add_comm, Nat.add_mul_mod_self_right, Nat.mod_eq_of_lt hj]

theorem index_inj {cols i1 j1 i2 j2 : ℕ} (h1 : j1 < cols) (h2 : j2 < cols)
    (h : Matrix.index cols i1 j1 = Matrix.index cols i2 j2) : i1 = i2 ∧ j1 = j2 := by
  have hc : 0 < cols := Nat.lt_of_le_of_lt (Nat.zero_le j1) h1
  obtain ⟨d1, m1⟩ := index_div_mod hc i1 j1 h1
  obtain ⟨d2, m2⟩ := index_div_mod hc i2 j2 h2
  constructor
  · rw [← d1, ← d2, h]
  · rw [← m1, ← m2, h]

/- ------------------------------------------------------------------ -/
/- C8: the trait layer's eligibility predicate and alignments.         -/
/- ------------------------------------------------------------------ -/

/-- C8: `simd_traits<T, N>::kIsSimdCompatible` is true for exactly the
four pairs `(f32, 4)`, `(f32, 8)`, `(f64, 2)`, `(f64, 4)`; `kAlignment`
is 16 for the two 128-bit pairs, 32 for the two 256-bit pairs, and
`alignof(T)` for every non-eligible combination. -/
theorem claim_C8 :
    (∀ (t : CType) (n : ℕ),
      simd_traits.kIsSimdCompatible t n = true ↔
        ((t = CType.f32 ∧ n = 4) ∨ (t = CType.f32 ∧ n = 8) ∨
          (t = CType.f64 ∧ n = 2) ∨ (t = CType.f64 ∧ n = 4))) ∧
    simd_traits.kAlignment CType.f32 4 = 16 ∧
    simd_traits.kAlignment CType.f64 2 = 16 ∧
    simd_traits.kAlignment CType.f32 8 = 32 ∧
    simd_traits.kAlignment CType.f64 4 = 32 ∧
    (∀ (t : CType) (n : ℕ),
      simd_traits.kIsSimdCompatible t n = false →
        simd_traits.kAlignment t n = simd_traits.alignofT t) := by
  refine ⟨?_, rfl, rfl, rfl, rfl, ?_⟩
  · intro t n
    rw [simd_traits.kIsSimdCompatible.eq_def]
    split <;> simp_all
  · intro t n h
    rw [simd_traits.kIsSimdCompatible.eq_def] at h
    rw [simd_traits.kAlignment.eq_def]
    split <;> simp_all

/- ------------------------------------------------------------------ -/
/- C4: bounds assertions on the public indexed accessors.              -/
/- ------------------------------------------------------------------ -/

/-- C4 counterexample: the out-of-bounds index 4 passes
`Quaternion::operator[]` unasserted — the accessor (quaternion.hpp
lines 85-99) contains no `PBRT_ASSERT` at all, so the claim that it
asserts `i < 4` is false. -/
theorem claim_C4_counterexample : Quat.subscriptAssert 4 ∧ ¬(4 < 4) :=
  ⟨trivial, by decide⟩

/-- C4 as amended: `Vector::operator[]` asserts `i < N`, and
`Matrix::operator()`/`at` assert `row < Rows` and `col < Cols` (their own
assertion is the weaker disjunction `row < Rows || col < Cols`, but the
private `index` helper they always call asserts the conjunction); the
assertions on each path hold exactly on in-bounds indices.
`Quaternion::operator[]`, however, performs no bounds assertion, so every
index passes. -/
theorem claim_C4 :
    (∀ n i, Vector.subscriptAssert n i ↔ i < n) ∧
    (∀ rows cols r c, Matrix.parenPathAssert rows cols r c ↔ (r < rows ∧ c < cols)) ∧
    (∀ rows cols r c, Matrix.atPathAssert rows cols r c ↔ (r < rows ∧ c < cols)) ∧
    (∀ i, Quat.subscriptAssert i) := by
  refine ⟨fun n i => Iff.rfl, fun rows cols r c => ?_, fun rows cols r c => ?_, fun i => trivial⟩
  · exact ⟨fun h => h.2, fun h => ⟨Or.inl h.1, h⟩⟩
  · exact ⟨fun h => h.2.2, fun h => ⟨Or.inl h.1, Or.inl h.1, h⟩⟩

/- ------------------------------------------------------------------ -/
/- C10: quaternion equality is tolerance-based, vector and matrix      -/
/- equality exact.                                                     -/
/- ------------------------------------------------------------------ -/

/-- C10: `Quaternion::operator==` is `approx_equal` at tolerance `1e-6`
(float) resp. `1e-10` (double) — true iff every component differs by at
most the tolerance — hence distinct quaternions compare equal
(`(0,0,0,0) == (1e-6,0,0,0)`) and the relation is not transitive
(`0 ~ 1e-6 ~ 2e-6` but `0 ≁ 2e-6`); `Vector::operator==` and
`Matrix::operator==` by contrast are exact component-wise comparisons. -/
theorem claim_C10 :
    (∀ a b : Quat,
      Quat.beqF a b = true ↔
        (|a.w - b.w| ≤ EPSILON ∧ |a.x - b.x| ≤ EPSILON ∧
          |a.y - b.y| ≤ EPSILON ∧ |a.z - b.z| ≤ EPSILON)) ∧
    (∀ a b : Quat,
      Quat.beqD a b = true ↔
        (|a.w - b.w| ≤ PRECISION_EPSILON ∧ |a.x - b.x| ≤ PRECISION_EPSILON ∧
          |a.y - b.y| ≤ PRECISION_EPSILON ∧ |a.z - b.z| ≤ PRECISION_EPSILON)) ∧
    (Quat.beqF ⟨0, 0, 0, 0⟩ ⟨EPSILON, 0, 0, 0⟩ = true ∧
      (⟨0, 0, 0, 0⟩ : Quat) ≠ ⟨EPSILON, 0, 0, 0⟩) ∧
    (Quat.beqF ⟨EPSILON, 0, 0, 0⟩ ⟨2 * EPSILON, 0, 0, 0⟩ = true ∧
      Quat.beqF ⟨0, 0, 0, 0⟩ ⟨2 * EPSILON, 0, 0, 0⟩ = false) ∧
    (∀ (n : ℕ) (a b : List ℚ),
      Vector.beqVec n a b = true ↔ ∀ i < n, a.getD i 0 = b.getD i 0) ∧
    (∀ (s : ℕ) (a b : List ℚ),
      Matrix.beqMat s a b = true ↔ ∀ i < s, a.getD i 0 = b.getD i 0) := by
  refine ⟨?_, ?_, ⟨?_, ?_⟩, ⟨?_, ?_⟩, ?_, ?_⟩
  · intro a b
    simp [Quat.beqF, Quat.approx_equal, and_assoc]
  · intro a b
    simp [Quat.beqD, Quat.approx_equal, and_assoc]
  · simp only [Quat.beqF, Quat.approx_equal, EPSILON]
    norm_num [abs_le]
  · intro h
    have := congrArg Quat.w h
    simp [EPSILON] at this
    exact absurd this (by norm_num)
  · simp only [Quat.beqF, Quat.approx_equal, EPSILON]
    norm_num [abs_le]
  · simp only [Quat.beqF, Quat.approx_equal, EPSILON]
    norm_num [lt_abs]
  · intro n a b
    simp [Vector.beqVec]
  · intro s a b
    simp [Matrix.beqMat]

/- ------------------------------------------------------------------ -/
/- C3: dividing a matrix by the zero scalar.                           -/
/- ------------------------------------------------------------------ -/

/-- C3 counterexample: the hardware-specialised
`Matrix<f32, 4, 4>::operator/=(f32 const&)` has no zero guard on either
of its branches, so dividing the identity matrix by `0.0f` does not leave
it unchanged: every diagonal `1` becomes `+inf` and every off-diagonal
`0` becomes NaN — refuting the claim's "including for the
hardware-specialized 4x4 float matrix". -/
theorem claim_C3_counterexample :
    Mat4f.divScalar Mat4f.identityFx (Fx.fin 0) =
      [Fx.posInf, Fx.nan, Fx.nan, Fx.nan,
       Fx.nan, Fx.posInf, Fx.nan, Fx.nan,
       Fx.nan, Fx.nan, Fx.posInf, Fx.nan,
       Fx.nan, Fx.nan, Fx.nan, Fx.posInf] ∧
    Mat4f.divScalar Mat4f.identityFx (Fx.fin 0) ≠ Mat4f.identityFx := by
  constructor
  · simp [Mat4f.divScalar, Mat4f.identityFx, Fx.div]
  · simp [Mat4f.divScalar, Mat4f.identityFx, Fx.div]

/-- C3 as amended: the generic `Matrix::operator/=(T const&)` is guarded
— a zero scalar makes it a no-op, leaving every element unchanged, and a
nonzero scalar divides element-wise — but the `Matrix<f32, 4, 4>` (and
`<f64, 4, 4>`) specialisations divide unguarded, producing Inf/NaN
entries on a zero divisor. -/
theorem claim_C3 :
    (∀ m : List ℚ, Matrix.divScalar m 0 = m) ∧
    (∀ (m : List ℚ) (s : ℚ), s ≠ 0 → Matrix.divScalar m s = m.map (fun x => x / s)) := by
  constructor
  · intro m
    simp [Matrix.divScalar]
  · intro m s hs
    simp [Matrix.divScalar, hs]

/- ------------------------------------------------------------------ -/
/- C2: dividing a vector by zero.                                      -/
/- ------------------------------------------------------------------ -/

/-- C2 counterexample: the specialisation
`Vector<f32, 4>::operator/=(f32 const&)` (and its SSE4.2 branch alike)
performs a raw lane-wise IEEE division with no `safe_divide`, so
`(1, 2, 3, 4) / 0.0f` yields four `+inf` components, not the zero vector
— refuting the claim's "for every Vector<T, N>". -/
theorem claim_C2_counterexample :
    Vec4f.divScalar [Fx.fin 1, Fx.fin 2, Fx.fin 3, Fx.fin 4] (Fx.fin 0) =
      [Fx.posInf, Fx.posInf, Fx.posInf, Fx.posInf] ∧
    Vec4f.divScalar [Fx.fin 1, Fx.fin 2, Fx.fin 3, Fx.fin 4] (Fx.fin 0) ≠
      [Fx.fin 0, Fx.fin 0, Fx.fin 0, Fx.fin 0] ∧
    (Vec4f.divScalar [Fx.fin 1, Fx.fin 2, Fx.fin 3, Fx.fin 4] (Fx.fin 0)).all
      Fx.isFinite = false := by
  refine ⟨?_, ?_, ?_⟩ <;> simp [Vec4f.divScalar, Fx.div, Fx.isFinite]

/-- C2 as amended: on the generic template's scalar loop, which applies
the (spec-modelled) `safe_divide`, dividing by the zero scalar zeroes
every component, and element-wise division yields `0` in every component
whose divisor component is `0` — but the `Vector<f32, 4>` (and f64)
specialisations divide unguarded. -/
theorem claim_C2 :
    (∀ v : List ℚ, Vector.divScalar v 0 = List.map (fun _ => 0) v) ∧
    (∀ (v u : List ℚ) (i : ℕ),
      u.getD i 0 = 0 → (Vector.divVector v u).getD i 0 = 0) := by
  constructor
  · intro v
    simp [Vector.divScalar, safe_divide]
  · intro v u i
    induction v generalizing u i with
    | nil => simp [Vector.divVector]
    | cons a t ih =>
      cases u with
      | nil => simp [Vector.divVector]
      | cons b s =>
        cases i with
        | zero =>
          intro h
          simp at h
          simp [Vector.divVector, safe_divide, h]
        | succ i =>
          intro h
          simpa [Vector.divVector] using ih s i (by simpa using h)

/- ------------------------------------------------------------------ -/
/- Evaluation lemmas for the sqrt model.                               -/
/- ------------------------------------------------------------------ -/

theorem ratSqrt_zero : ratSqrt 0 = 0 := by simp [ratSqrt]

theorem ratSqrt_one : ratSqrt 1 = 1 := by
  rw [ratSqrt, if_neg (by norm_num)]
  rw [show ((1 : ℚ) * 4 ^ 60) = ((2 ^ 120 : ℤ) : ℚ) by norm_num]
  rw [Int.floor_intCast]
  rw [show ((2 ^ 120 : ℤ)).toNat = 2 ^ 120 by decide]
  rw [show intSqrt (2 ^ 120) = 2 ^ 60 by decide]
  norm_num

theorem ratSqrt_tiny : ratSqrt (1 / 2 ^ 54) = 1 / 2 ^ 27 := by
  rw [ratSqrt, if_neg (by norm_num)]
  rw [show ((1 : ℚ) / 2 ^ 54 * 4 ^ 60) = ((2 ^ 66 : ℤ) : ℚ) by norm_num]
  rw [Int.floor_intCast]
  rw [show ((2 ^ 66 : ℤ)).toNat = 2 ^ 66 by decide]
  rw [show intSqrt (2 ^ 66) = 2 ^ 33 by decide]
  norm_num

/- ------------------------------------------------------------------ -/
/- C1: normalize on degenerate and near-degenerate vectors.            -/
/- ------------------------------------------------------------------ -/

theorem length_squared_tiny :
    Vector.length_squared [(1 : ℚ) / 2 ^ 27, 0, 0] = 1 / 2 ^ 54 := by
  norm_num [Vector.length_squared, Vector.dot]

theorem length_tiny : Vector.length [(1 : ℚ) / 2 ^ 27, 0, 0] = 1 / 2 ^ 27 := by
  rw [Vector.length, length_squared_tiny, ratSqrt_tiny]

/-- C1 counterexample: the vector `(2^-27, 0, 0)` (every step of which is
exact in `f32` as well) has positive length `2^-27`, far below both the
machine epsilon `2^-23` of `f32` and the library's practical epsilon
`1e-6`, yet `normalize`/`normalized` (vector.hpp lines 589-607) divide by
that length and return the unit vector `(1, 0, 0)` — not the zero vector
the claim requires for any length below a small epsilon. -/
theorem claim_C1_counterexample :
    0 < (1 : ℚ) / 2 ^ 27 ∧
    Vector.length [(1 : ℚ) / 2 ^ 27, 0, 0] = 1 / 2 ^ 27 ∧
    (1 : ℚ) / 2 ^ 27 < STD_EPSILON_F32 ∧
    (1 : ℚ) / 2 ^ 27 < EPSILON ∧
    Vector.normalize [(1 : ℚ) / 2 ^ 27, 0, 0] = [1, 0, 0] ∧
    Vector.normalized [(1 : ℚ) / 2 ^ 27, 0, 0] = [1, 0, 0] ∧
    Vector.normalized [(1 : ℚ) / 2 ^ 27, 0, 0] ≠ Vector.zero 3 := by
  have hnorm : Vector.normalize [(1 : ℚ) / 2 ^ 27, 0, 0] = [1, 0, 0] := by
    rw [Vector.normalize, length_tiny]
    norm_num [Vector.divScalar, safe_divide]
  refine ⟨by norm_num, length_tiny, ?_, ?_, hnorm, hnorm, ?_⟩
  · rw [STD_EPSILON_F32]; norm_num
  · rw [EPSILON]; norm_num
  · rw [Vector.normalized, hnorm]
    simp [Vector.zero, List.replicate]

/-- C1 as amended: `normalize`/`normalized` divide by the length
unconditionally (after asserting `length > 0`, an assertion compiled away
outside debug builds); no epsilon test exists on this path.  Under the
(spec-modelled) safe-divide policy only a vector of length exactly `0`
maps to the zero vector — in particular `zero().normalized() == zero()` —
while any vector of positive length, however far below epsilon, is
divided by its length as usual (the epsilon fallback the claim describes
belongs to `safe_normalized`). -/
theorem claim_C1 :
    (∀ v : List ℚ, Vector.length_squared v = 0 →
      Vector.normalized v = List.map (fun _ => 0) v) ∧
    (∀ n : ℕ, Vector.normalized (Vector.zero n) = Vector.zero n) ∧
    (∀ v : List ℚ, Vector.length v ≠ 0 →
      Vector.normalized v = v.map (fun x => x / Vector.length v)) ∧
    (∀ v : List ℚ, Vector.normalizeAssert v ↔ 0 < Vector.length v) := by
  have hzero : ∀ n : ℕ, Vector.length_squared (Vector.zero n) = 0 := by
    intro n
    have hz : List.zipWith (α := ℚ) (β := ℚ) (· * ·) (List.replicate n 0)
        (List.replicate n 0) = List.replicate n 0 := by
      induction n with
      | zero => simp
      | succ k ih => simp [List.replicate, ih]
    have hs : ∀ k : ℕ, (List.replicate k (0 : ℚ)).foldl (· + ·) 0 = 0 := by
      intro k
      induction k with
      | zero => simp
      | succ k ih => simpa [List.replicate] using ih
    rw [Vector.length_squared, Vector.dot, Vector.zero, hz]
    exact hs n
  have hdeg : ∀ v : List ℚ, Vector.length_squared v = 0 →
      Vector.normalized v = List.map (fun _ => 0) v := by
    intro v hv
    rw [Vector.normalized, Vector.normalize, Vector.length, hv, ratSqrt_zero]
    simp [Vector.divScalar, safe_divide]
  refine ⟨hdeg, ?_, ?_, ?_⟩
  · intro n
    rw [hdeg (Vector.zero n) (hzero n), Vector.zero, List.map_replicate]
  · intro v hv
    rw [Vector.normalized, Vector.normalize, Vector.divScalar]
    exact List.map_congr_left fun x _ => by rw [safe_divide, if_neg hv]
  · intro v
    exact Iff.rfl

/- ------------------------------------------------------------------ -/
/- C7: slerp.                                                          -/
/- ------------------------------------------------------------------ -/

theorem quat_add_smul_zero (q x : Quat) : Quat.add q (Quat.smul 0 x) = q := by
  cases q; cases x; simp [Quat.add, Quat.smul]

theorem quat_add_zero (q : Quat) : Quat.add q ⟨0, 0, 0, 0⟩ = q := by
  cases q; simp [Quat.add]

theorem quat_smul_comb_left (a b : Quat) :
    Quat.add (Quat.smul 1 a) (Quat.smul 0 b) = a := by
  cases a; cases b; simp [Quat.add, Quat.smul]

theorem quat_smul_comb_right (a b : Quat) :
    Quat.add (Quat.smul 0 a) (Quat.smul 1 b) = b := by
  cases a; cases b; simp [Quat.add, Quat.smul]

theorem quat_lerp_at_one (a b : Quat) :
    Quat.add a (Quat.smul 1 (Quat.sub b a)) = b := by
  cases a; cases b; simp [Quat.add, Quat.smul, Quat.sub]

theorem quat_sub_self (q : Quat) : Quat.sub q q = ⟨0, 0, 0, 0⟩ := by
  cases q; simp [Quat.sub]

theorem quat_smul_zero_quat (t : ℚ) : Quat.smul t ⟨0, 0, 0, 0⟩ = ⟨0, 0, 0, 0⟩ := by
  simp [Quat.smul]

theorem quat_neg_neg (q : Quat) : Quat.neg (Quat.neg q) = q := by
  cases q; simp [Quat.neg]

theorem quat_dot_neg_self (q : Quat) :
    Quat.dot q (Quat.neg q) = -Quat.length_squared q := by
  cases q; simp [Quat.dot, Quat.neg, Quat.length_squared]; ring

theorem quat_normalized_identity : Quat.normalized ⟨1, 0, 0, 0⟩ = ⟨1, 0, 0, 0⟩ := by
  rw [Quat.normalized]
  rw [show Quat.length ⟨1, 0, 0, 0⟩ = 1 by
    rw [Quat.length, show Quat.length_squared ⟨1, 0, 0, 0⟩ = 1 by
      norm_num [Quat.length_squared], ratSqrt_one]]
  rw [if_neg (by rw [EPSILON]; norm_num)]
  norm_num

/-- C7 counterexample: for `q1` the identity quaternion and `q2 = -q1`
(the same rotation, opposite sign), the shortest-path flip sends `q2`
back to `q1`, the adjusted dot product is `1 > 0.9995`, and the
renormalised-lerp branch returns `q1 = (1, 0, 0, 0)` at `t = 1` — which
is not approximately `q2 = (-1, 0, 0, 0)` under the library's own
`approx_equal`/`operator==` at any of its epsilons, refuting
"slerp(q1, q2, 1) is approximately q2".  (The branch taken evaluates no
trigonometric call, so the opaque trig model is irrelevant here.) -/
theorem claim_C7_counterexample :
    Quat.slerp unusedTrig ⟨1, 0, 0, 0⟩ ⟨-1, 0, 0, 0⟩ 1 = ⟨1, 0, 0, 0⟩ ∧
    Quat.approx_equal (Quat.slerp unusedTrig ⟨1, 0, 0, 0⟩ ⟨-1, 0, 0, 0⟩ 1)
      ⟨-1, 0, 0, 0⟩ EPSILON = false ∧
    Quat.beqF (Quat.slerp unusedTrig ⟨1, 0, 0, 0⟩ ⟨-1, 0, 0, 0⟩ 1)
      ⟨-1, 0, 0, 0⟩ = false := by
  have hs : Quat.slerp unusedTrig ⟨1, 0, 0, 0⟩ ⟨-1, 0, 0, 0⟩ 1 = ⟨1, 0, 0, 0⟩ := by
    rw [Quat.slerp]
    rw [show Quat.dot ⟨1, 0, 0, 0⟩ ⟨-1, 0, 0, 0⟩ = -1 by norm_num [Quat.dot]]
    rw [if_pos (by norm_num)]
    rw [show Quat.neg ⟨-1, 0, 0, 0⟩ = (⟨1, 0, 0, 0⟩ : Quat) by simp [Quat.neg]]
    rw [Quat.slerpPost, if_pos (by norm_num)]
    rw [quat_sub_self, quat_smul_zero_quat, quat_add_zero]
    exact quat_normalized_identity
  refine ⟨hs, ?_, ?_⟩
  · rw [hs]
    simp only [Quat.approx_equal, EPSILON]
    norm_num
  · rw [hs]
    simp only [Quat.beqF, Quat.approx_equal, EPSILON]
    norm_num

/-- C7 as amended: `slerp` flips the sign of `q2` and of the dot product
whenever `dot(q1, q2) < 0`; whenever the adjusted dot product `|dot|`
exceeds `0.9995` it returns the renormalised linear interpolation
`normalize(q1 + t*(q2' - q1))` of the adjusted `q2'`; at `t = 0` it
returns `q1` (up to the renormalisation of the fallback branch); at
`t = 1` it returns the *sign-adjusted* `q2'` — that is `q2` itself only
when `dot(q1, q2) ≥ 0`, and `-q2` otherwise — again up to the fallback
renormalisation; and between a unit quaternion and its negation it takes
the fallback branch and returns `normalize(q1)` without ever forming the
`sin θ₀` denominator. -/
theorem claim_C7 :
    ∀ (tm : TrigModel) (q1 q2 : Quat) (t : ℚ),
      (Quat.dot q1 q2 < 0 →
        Quat.slerp tm q1 q2 t = Quat.slerpPost tm q1 (Quat.neg q2) (-(Quat.dot q1 q2)) t) ∧
      (|Quat.dot q1 q2| > (9995 : ℚ) / 10 ^ 4 →
        Quat.slerp tm q1 q2 t =
          Quat.normalized (Quat.add q1 (Quat.smul t (Quat.sub (Quat.adjusted q1 q2) q1)))) ∧
      (tm.sinF 0 = 0 → tm.cosF 0 = 1 →
        (Quat.slerp tm q1 q2 0 = q1 ∨ Quat.slerp tm q1 q2 0 = Quat.normalized q1)) ∧
      (tm.cosF (tm.acosF |Quat.dot q1 q2|) = |Quat.dot q1 q2| →
        tm.sinF (tm.acosF |Quat.dot q1 q2|) ≠ 0 →
        (Quat.slerp tm q1 q2 1 = Quat.adjusted q1 q2 ∨
          Quat.slerp tm q1 q2 1 = Quat.normalized (Quat.adjusted q1 q2))) ∧
      (Quat.length_squared q1 = 1 →
        Quat.slerp tm q1 (Quat.neg q1) t = Quat.normalized q1) := by
  intro tm q1 q2 t
  refine ⟨?_, ?_, ?_, ?_, ?_⟩
  · intro hd
    rw [Quat.slerp, if_pos hd]
  · intro habs
    rw [Quat.slerp, Quat.adjusted]
    by_cases hd : Quat.dot q1 q2 < 0
    · rw [if_pos hd, if_pos hd, Quat.slerpPost,
        if_pos (by rwa [abs_of_neg hd] at habs)]
    · rw [if_neg hd, if_neg hd, Quat.slerpPost,
        if_pos (by rwa [abs_of_nonneg (not_lt.mp hd)] at habs)]
  · intro hsin hcos
    have core : ∀ (q2A : Quat) (dp : ℚ),
        Quat.slerpPost tm q1 q2A dp 0 = q1 ∨
          Quat.slerpPost tm q1 q2A dp 0 = Quat.normalized q1 := by
      intro q2A dp
      simp only [Quat.slerpPost]
      by_cases hb : dp > (9995 : ℚ) / 10 ^ 4
      · rw [if_pos hb, quat_add_smul_zero]
        exact Or.inr rfl
      · rw [if_neg hb, mul_zero, hsin, hcos, mul_zero, zero_div, sub_zero]
        exact Or.inl (quat_smul_comb_left q1 q2A)
    rw [Quat.slerp]
    by_cases hd : Quat.dot q1 q2 < 0
    · rw [if_pos hd]
      exact core _ _
    · rw [if_neg hd]
      exact core _ _
  · intro hcos hsin
    have core : ∀ (q2A : Quat) (dp : ℚ), dp = |Quat.dot q1 q2| →
        Quat.slerpPost tm q1 q2A dp 1 = q2A ∨
          Quat.slerpPost tm q1 q2A dp 1 = Quat.normalized q2A := by
      intro q2A dp hdp
      simp only [Quat.slerpPost]
      by_cases hb : dp > (9995 : ℚ) / 10 ^ 4
      · rw [if_pos hb, quat_lerp_at_one]
        exact Or.inr rfl
      · rw [if_neg hb, mul_one, hdp, abs_abs, mul_div_assoc, div_self hsin, mul_one,
          hcos, sub_self]
        exact Or.inl (quat_smul_comb_right q1 q2A)
    rw [Quat.slerp, Quat.adjusted]
    by_cases hd : Quat.dot q1 q2 < 0
    · rw [if_pos hd, if_pos hd]
      exact core _ _ (by rw [abs_of_neg hd])
    · rw [if_neg hd, if_neg hd]
      exact core _ _ (by rw [abs_of_nonneg (not_lt.mp hd)])
  · intro hq
    rw [Quat.slerp, quat_dot_neg_self, hq]
    rw [if_pos (by norm_num), quat_neg_neg, Quat.slerpPost, if_pos (by norm_num),
      quat_sub_self, quat_smul_zero_quat, quat_add_zero]

/- ------------------------------------------------------------------ -/
/- C9: transpose round trip.                                           -/
/- ------------------------------------------------------------------ -/

theorem foldl_length_fix {β : Type} (L : List β) (f : List ℚ → β → List ℚ)
    (h : ∀ acc x, (f acc x).length = acc.length) (init : List ℚ) :
    (L.foldl f init).length = init.length := by
  induction L generalizing init with
  | nil => rfl
  | cons a t ih => rw [List.foldl_cons, ih, h]

theorem mget_zero (rows cols p q : ℕ) : Matrix.mget cols (Matrix.zero rows cols) p q = 0 := by
  simp [Matrix.mget, Matrix.zero, getD_replicate]

theorem mget_mset (cols : ℕ) (m : List ℚ) {p q : ℕ} (hq : q < cols) (i j : ℕ)
    (hj : j < cols) (v : ℚ) :
    Matrix.mget cols (Matrix.mset cols m i j v) p q =
      if i = p ∧ j = q ∧ Matrix.index cols i j < m.length then v
      else Matrix.mget cols m p q := by
  rw [Matrix.mget, Matrix.mset, getD_set_ite]
  by_cases h : i = p ∧ j = q ∧ Matrix.index cols i j < m.length
  · rw [if_pos ⟨by rw [h.1, h.2.1], h.2.2⟩, if_pos h]
  · rw [if_neg ?_, if_neg h, Matrix.mget]
    intro ⟨he, hl⟩
    exact h ⟨(index_inj hj hq he).1, (index_inj hj hq he).2, hl⟩

theorem transpose_inner_char (rows cols : ℕ) (m acc : List ℚ) (i : ℕ) (hi : i < rows)
    (hacc : acc.length = cols * rows) (t : ℕ) (ht : t ≤ cols) {p q : ℕ} (hq : q < rows) :
    Matrix.mget rows
      ((List.range t).foldl (fun acc2 j => Matrix.mset rows acc2 j i (Matrix.mget cols m i j)) acc)
      p q =
      if p < t ∧ q = i then Matrix.mget cols m i p else Matrix.mget rows acc p q := by
  induction t with
  | zero => simp
  | succ k ih =>
    have hlen : ((List.range k).foldl
        (fun acc2 j => Matrix.mset rows acc2 j i (Matrix.mget cols m i j)) acc).length =
        cols * rows := by
      have h := foldl_length_fix (List.range k)
        (fun acc2 j => Matrix.mset rows acc2 j i (Matrix.mget cols m i j))
        (fun a x => by simp [Matrix.mset]) acc
      rw [h, hacc]
    rw [List.range_succ, List.foldl_append, List.foldl_cons, List.foldl_nil]
    rw [mget_mset rows _ hq k i hi]
    rw [ih (Nat.le_of_succ_le ht)]
    by_cases h1 : k = p ∧ i = q ∧ Matrix.index rows k i < ((List.range k).foldl
        (fun acc2 j => Matrix.mset rows acc2 j i (Matrix.mget cols m i j)) acc).length
    · rw [if_pos h1, if_pos ⟨by omega, h1.2.1.symm⟩, h1.1]
    · rw [if_neg h1]
      by_cases h2 : p < k ∧ q = i
      · rw [if_pos h2, if_pos ⟨by omega, h2.2⟩]
      · rw [if_neg h2, if_neg ?_]
        intro ⟨hpk, hqi⟩
        have hik : Matrix.index rows k i < cols * rows :=
          index_lt_of_lt (by omega : k < cols) hi
        exact h1 (by
          constructor
          · omega
          · exact ⟨hqi.symm, by rw [hlen]; exact hik⟩)

theorem transpose_outer_char (rows cols : ℕ) (m : List ℚ) (t : ℕ) (ht : t ≤ rows)
    {p q : ℕ} (hq : q < rows) :
    Matrix.mget rows
      ((List.range t).foldl
        (fun acc i =>
          (List.range cols).foldl
            (fun acc2 j => Matrix.mset rows acc2 j i (Matrix.mget cols m i j)) acc)
        (Matrix.zero cols rows)) p q =
      if p < cols ∧ q < t then Matrix.mget cols m q p else 0 := by
  induction t with
  | zero => simp [mget_zero]
  | succ k ih =>
    have hlen : ((List.range k).foldl
        (fun acc i =>
          (List.range cols).foldl
            (fun acc2 j => Matrix.mset rows acc2 j i (Matrix.mget cols m i j)) acc)
        (Matrix.zero cols rows)).length = cols * rows := by
      have h := foldl_length_fix (List.range k)
        (fun acc i =>
          (List.range cols).foldl
            (fun acc2 j => Matrix.mset rows acc2 j i (Matrix.mget cols m i j)) acc)
        (fun a x => foldl_length_fix (List.range cols)
          (fun acc2 j => Matrix.mset rows acc2 j x (Matrix.mget cols m x j))
          (fun a2 x2 => by simp [Matrix.mset]) a) (Matrix.zero cols rows)
      rw [h]
      simp [Matrix.zero]
    rw [List.range_succ, List.foldl_append, List.foldl_cons, List.foldl_nil]
    rw [transpose_inner_char rows cols m _ k (by omega) hlen cols (le_refl cols) hq]
    rw [ih (by omega)]
    by_cases h1 : p < cols ∧ q = k
    · rw [if_pos h1, if_pos ⟨h1.1, by omega⟩, h1.2]
    · rw [if_neg h1]
      by_cases h2 : p < cols ∧ q < k
      · rw [if_pos h2, if_pos ⟨h2.1, by omega⟩]
      · rw [if_neg h2, if_neg (by omega)]

theorem mget_transpose (rows cols : ℕ) (m : List ℚ) {p q : ℕ} (hq : q < rows) :
    Matrix.mget rows (Matrix.transpose rows cols m) p q =
      if p < cols then Matrix.mget cols m q p else 0 := by
  rw [Matrix.transpose, transpose_outer_char rows cols m rows (le_refl rows) hq]
  by_cases h : p < cols
  · rw [if_pos ⟨h, hq⟩, if_pos h]
  · rw [if_neg (by omega), if_neg h]

/-- C9: `transpose(transpose(A)) == A` holds exactly, component for
component through the library's own `operator==`, for every shape and
every element value; and the hardware-specialised 4x4 float `transpose`
(the `_mm_unpack`/`movelh`/`movehl` shuffle sequence) agrees exactly with
the generic scalar transpose, so the round trip holds through it as
well. -/
theorem claim_C9 :
    (∀ (rows cols : ℕ) (m : List ℚ),
      Matrix.beqMat (rows * cols)
        (Matrix.transpose cols rows (Matrix.transpose rows cols m)) m = true) ∧
    (∀ m : List ℚ, Mat4f.transposeSimd m = Matrix.transpose 4 4 m) ∧
    (∀ m : List ℚ,
      Matrix.beqMat 16 (Mat4f.transposeSimd (Mat4f.transposeSimd m)) m = true) := by
  have hsimd : ∀ m : List ℚ, Mat4f.transposeSimd m = Matrix.transpose 4 4 m := by
    intro m
    simp [Mat4f.transposeSimd, Lane4.loadu, Lane4.unpacklo, Lane4.unpackhi,
      Lane4.movelh, Lane4.movehl, Lane4.storeu, Matrix.transpose, Matrix.zero,
      Matrix.mset, Matrix.mget, Matrix.index, List.range_succ]
  have hround : ∀ (rows cols : ℕ) (m : List ℚ),
      Matrix.beqMat (rows * cols)
        (Matrix.transpose cols rows (Matrix.transpose rows cols m)) m = true := by
    intro rows cols m
    rw [Matrix.beqMat, List.all_eq_true]
    intro i hi
    rw [List.mem_range] at hi
    have hcols : 0 < cols := by
      rcases Nat.eq_zero_or_pos cols with h | h
      · subst h
        simp at hi
      · exact h
    have hq : i % cols < cols := Nat.mod_lt i hcols
    have hp : i / cols < rows := Nat.div_lt_of_lt_mul (by rwa [Nat.mul_comm] at hi)
    have hidx : Matrix.index cols (i / cols) (i % cols) = i := by
      rw [Matrix.index, Nat.add_comm, Nat.mod_add_div' i cols]
    have h1 : (Matrix.transpose cols rows (Matrix.transpose rows cols m)).getD i 0 =
        Matrix.mget cols (Matrix.transpose cols rows (Matrix.transpose rows cols m))
          (i / cols) (i % cols) := by
      rw [Matrix.mget, hidx]
    rw [h1, mget_transpose cols rows _ hq, if_pos hp,
      mget_transpose rows cols m hp, if_pos hq, Matrix.mget, hidx]
    exact beq_self_eq_true _
  refine ⟨hround, hsimd, fun m => ?_⟩
  rw [hsimd m, hsimd]
  exact hround 4 4 m

/- ------------------------------------------------------------------ -/
/- C6: the cache-blocked product equals the naive product.             -/
/- ------------------------------------------------------------------ -/

theorem foldl_add_shift (f : ℕ → ℚ) (len : ℕ) (init : ℚ) :
    (List.range len).foldl (fun s dk => s + f dk) init =
      init + (List.range len).foldl (fun s dk => s + f dk) 0 := by
  induction len generalizing init with
  | zero => simp
  | succ n ih =>
    rw [List.range_succ, List.foldl_append, List.foldl_append, List.foldl_cons,
      List.foldl_cons, List.foldl_nil, List.foldl_nil, ih]
    ring

theorem sumRange_succ (f : ℕ → ℚ) (n : ℕ) :
    (List.range (n + 1)).foldl (fun s d => s + f d) 0 =
      (List.range n).foldl (fun s d => s + f d) 0 + f n := by
  rw [List.range_succ, List.foldl_append, List.foldl_cons, List.foldl_nil]

theorem kSum_concat (cols ocols : ℕ) (a b : List ℚ) (i j k0 len1 len2 : ℕ) :
    Matrix.kSum cols ocols a b i j k0 len1 +
      Matrix.kSum cols ocols a b i j (k0 + len1) len2 =
      Matrix.kSum cols ocols a b i j k0 (len1 + len2) := by
  induction len2 with
  | zero => simp [Matrix.kSum]
  | succ n ih =>
    have e2 : Matrix.kSum cols ocols a b i j (k0 + len1) (n + 1) =
        Matrix.kSum cols ocols a b i j (k0 + len1) n +
          Matrix.mget cols a i (k0 + len1 + n) * Matrix.mget ocols b (k0 + len1 + n) j := by
      rw [Matrix.kSum, Matrix.kSum, sumRange_succ]
    have e3 : Matrix.kSum cols ocols a b i j k0 (len1 + (n + 1)) =
        Matrix.kSum cols ocols a b i j k0 (len1 + n) +
          Matrix.mget cols a i (k0 + (len1 + n)) * Matrix.mget ocols b (k0 + (len1 + n)) j := by
      rw [show len1 + (n + 1) = (len1 + n) + 1 by omega, Matrix.kSum, Matrix.kSum,
        sumRange_succ]
    rw [e2, e3, ← ih, show k0 + (len1 + n) = k0 + len1 + n by omega]
    ring

theorem kSum_full (cols ocols : ℕ) (a b : List ℚ) (i j len : ℕ) :
    Matrix.kSum cols ocols a b i j 0 len =
      (List.range len).foldl
        (fun s k => s + Matrix.mget cols a i k * Matrix.mget ocols b k j) 0 := by
  simp [Matrix.kSum]

theorem multiply_block_length (rows cols ocols : ℕ) (a b : List ℚ) (ii jj kk bs : ℕ)
    (res : List ℚ) :
    (Matrix.multiply_block rows cols ocols a b ii jj kk bs res).length = res.length := by
  rw [Matrix.multiply_block]
  exact foldl_length_fix _ _
    (fun acc di => foldl_length_fix _ _ (fun acc2 dj => by simp [Matrix.mset]) acc) res

theorem block_inner_char (rows cols ocols : ℕ) (a b : List ℚ) (jj kk bs : ℕ)
    (i0 : ℕ) (hi0 : i0 < rows) (acc : List ℚ) (hacc : acc.length = rows * ocols)
    (n : ℕ) :
    jj + n ≤ ocols → ∀ p q, q < ocols →
    Matrix.mget ocols
      ((List.range n).foldl
        (fun acc2 dj =>
          Matrix.mset ocols acc2 i0 (jj + dj)
            ((List.range (min (kk + bs) cols - kk)).foldl
              (fun sum dk =>
                sum + Matrix.mget cols a i0 (kk + dk) * Matrix.mget ocols b (kk + dk) (jj + dj))
              (Matrix.mget ocols acc2 i0 (jj + dj))))
        acc) p q =
      if p = i0 ∧ jj ≤ q ∧ q < jj + n then
        Matrix.mget ocols acc p q +
          Matrix.kSum cols ocols a b p q kk (min (kk + bs) cols - kk)
      else Matrix.mget ocols acc p q := by
  induction n with
  | zero =>
    intro _ p q _
    simp only [List.range_zero, List.foldl_nil]
    rw [if_neg (by omega)]
  | succ n ih =>
    intro hn p q hq
    have hn' : jj + n ≤ ocols := by omega
    have hlen : ((List.range n).foldl
        (fun acc2 dj =>
          Matrix.mset ocols acc2 i0 (jj + dj)
            ((List.range (min (kk + bs) cols - kk)).foldl
              (fun sum dk =>
                sum + Matrix.mget cols a i0 (kk + dk) * Matrix.mget ocols b (kk + dk) (jj + dj))
              (Matrix.mget ocols acc2 i0 (jj + dj))))
        acc).length = rows * ocols := by
      have h := foldl_length_fix (List.range n)
        (fun acc2 dj =>
          Matrix.mset ocols acc2 i0 (jj + dj)
            ((List.range (min (kk + bs) cols - kk)).foldl
              (fun sum dk =>
                sum + Matrix.mget cols a i0 (kk + dk) * Matrix.mget ocols b (kk + dk) (jj + dj))
              (Matrix.mget ocols acc2 i0 (jj + dj))))
        (fun acc2 x => by simp [Matrix.mset]) acc
      rw [h, hacc]
    have hin : Matrix.index ocols i0 (jj + n) < rows * ocols :=
      index_lt_of_lt hi0 (by omega)
    rw [List.range_succ, List.foldl_append, List.foldl_cons, List.foldl_nil]
    rw [mget_mset ocols _ hq i0 (jj + n) (by omega)]
    rw [foldl_add_shift (fun dk =>
      Matrix.mget cols a i0 (kk + dk) * Matrix.mget ocols b (kk + dk) (jj + n))]
    rw [ih hn' p q hq, ih hn' i0 (jj + n) (by omega), hlen]
    by_cases hc1 : p = i0 ∧ q = jj + n
    · obtain ⟨hp1, hq1⟩ := hc1
      subst hp1
      subst hq1
      rw [if_pos ⟨rfl, rfl, hin⟩, if_neg (by omega), if_pos (by omega), Matrix.kSum]
    · rw [if_neg (fun hcon => hc1 ⟨hcon.1.symm, hcon.2.1.symm⟩)]
      by_cases hc2 : p = i0 ∧ jj ≤ q ∧ q < jj + n
      · rw [if_pos hc2, if_pos (by omega)]
      · rw [if_neg hc2, if_neg (by omega)]

theorem block_rows_char (rows cols ocols : ℕ) (a b : List ℚ) (ii jj kk bs : ℕ)
    (res : List ℚ) (hres : res.length = rows * ocols) (hjj : jj ≤ ocols) (m : ℕ) :
    ii + m ≤ rows → ∀ p q, q < ocols →
    Matrix.mget ocols
      ((List.range m).foldl
        (fun acc di =>
          (List.range (min (jj + bs) ocols - jj)).foldl
            (fun acc2 dj =>
              Matrix.mset ocols acc2 (ii + di) (jj + dj)
                ((List.range (min (kk + bs) cols - kk)).foldl
                  (fun sum dk =>
                    sum +
                      Matrix.mget cols a (ii + di) (kk + dk) *
                        Matrix.mget ocols b (kk + dk) (jj + dj))
                  (Matrix.mget ocols acc2 (ii + di) (jj + dj))))
            acc)
        res) p q =
      if ii ≤ p ∧ p < ii + m ∧ jj ≤ q ∧ q < min (jj + bs) ocols then
        Matrix.mget ocols res p q +
          Matrix.kSum cols ocols a b p q kk (min (kk + bs) cols - kk)
      else Matrix.mget ocols res p q := by
  induction m with
  | zero =>
    intro _ p q _
    simp only [List.range_zero, List.foldl_nil]
    rw [if_neg (by omega)]
  | succ m ih =>
    intro hm p q hq
    have hm' : ii + m ≤ rows := by omega
    have hlen : ((List.range m).foldl
        (fun acc di =>
          (List.range (min (jj + bs) ocols - jj)).foldl
            (fun acc2 dj =>
              Matrix.mset ocols acc2 (ii + di) (jj + dj)
                ((List.range (min (kk + bs) cols - kk)).foldl
                  (fun sum dk =>
                    sum +
                      Matrix.mget cols a (ii + di) (kk + dk) *
                        Matrix.mget ocols b (kk + dk) (jj + dj))
                  (Matrix.mget ocols acc2 (ii + di) (jj + dj))))
            acc)
        res).length = rows * ocols := by
      have h := foldl_length_fix (List.range m)
        (fun acc di =>
          (List.range (min (jj + bs) ocols - jj)).foldl
            (fun acc2 dj =>
              Matrix.mset ocols acc2 (ii + di) (jj + dj)
                ((List.range (min (kk + bs) cols - kk)).foldl
                  (fun sum dk =>
                    sum +
                      Matrix.mget cols a (ii + di) (kk + dk) *
                        Matrix.mget ocols b (kk + dk) (jj + dj))
                  (Matrix.mget ocols acc2 (ii + di) (jj + dj))))
            acc)
        (fun acc x => foldl_length_fix _ _ (fun acc2 dj => by simp [Matrix.mset]) acc) res
      rw [h, hres]
    rw [List.range_succ, List.foldl_append, List.foldl_cons, List.foldl_nil]
    rw [block_inner_char rows cols ocols a b jj kk bs (ii + m) (by omega) _ hlen
      (min (jj + bs) ocols - jj) (by omega) p q hq]
    rw [ih hm' p q hq]
    by_cases hc1 : p = ii + m ∧ jj ≤ q ∧ q < jj + (min (jj + bs) ocols - jj)
    · rw [if_pos hc1, if_neg (by omega), if_pos (by omega)]
    · rw [if_neg hc1]
      by_cases hc2 : ii ≤ p ∧ p < ii + m ∧ jj ≤ q ∧ q < min (jj + bs) ocols
      · rw [if_pos hc2, if_pos (by omega)]
      · rw [if_neg hc2, if_neg (by omega)]

theorem multiply_block_char (rows cols ocols : ℕ) (a b : List ℚ) (ii jj kk bs : ℕ)
    (res : List ℚ) (hres : res.length = rows * ocols) (hii : ii ≤ rows)
    (hjj : jj ≤ ocols) (p q : ℕ) (hq : q < ocols) :
    Matrix.mget ocols (Matrix.multiply_block rows cols ocols a b ii jj kk bs res) p q =
      if ii ≤ p ∧ p < min (ii + bs) rows ∧ jj ≤ q ∧ q < min (jj + bs) ocols then
        Matrix.mget ocols res p q +
          Matrix.kSum cols ocols a b p q kk (min (kk + bs) cols - kk)
      else Matrix.mget ocols res p q := by
  rw [Matrix.multiply_block]
  rw [block_rows_char rows cols ocols a b ii jj kk bs res hres hjj
    (min (ii + bs) rows - ii) (by omega) p q hq]
  by_cases hc : ii ≤ p ∧ p < ii + (min (ii + bs) rows - ii) ∧ jj ≤ q ∧
      q < min (jj + bs) ocols
  · rw [if_pos hc, if_pos (by omega)]
  · rw [if_neg hc, if_neg (by omega)]

theorem kSum_len_zero (cols ocols : ℕ) (a b : List ℚ) (i j k0 : ℕ) :
    Matrix.kSum cols ocols a b i j k0 0 = 0 := by
  simp [Matrix.kSum]

theorem block_kloop_char (rows cols ocols : ℕ) (a b : List ℚ) (ii jj : ℕ)
    (res : List ℚ) (hres : res.length = rows * ocols) (hii : ii ≤ rows)
    (hjj : jj ≤ ocols) (nk : ℕ) (p q : ℕ) (hq : q < ocols) :
    Matrix.mget ocols
      ((List.range nk).foldl
        (fun acc3 tk => Matrix.multiply_block rows cols ocols a b ii jj (32 * tk) 32 acc3)
        res) p q =
      if ii ≤ p ∧ p < min (ii + 32) rows ∧ jj ≤ q ∧ q < min (jj + 32) ocols then
        Matrix.mget ocols res p q + Matrix.kSum cols ocols a b p q 0 (min (32 * nk) cols)
      else Matrix.mget ocols res p q := by
  induction nk with
  | zero =>
    simp only [List.range_zero, List.foldl_nil, Nat.mul_zero, Nat.zero_min,
      kSum_len_zero, add_zero, ite_self]
  | succ nk ih =>
    have hlen : ((List.range nk).foldl
        (fun acc3 tk => Matrix.multiply_block rows cols ocols a b ii jj (32 * tk) 32 acc3)
        res).length = rows * ocols := by
      have h := foldl_length_fix (List.range nk)
        (fun acc3 tk => Matrix.multiply_block rows cols ocols a b ii jj (32 * tk) 32 acc3)
        (fun acc3 tk => multiply_block_length rows cols ocols a b ii jj (32 * tk) 32 acc3)
        res
      rw [h, hres]
    rw [List.range_succ, List.foldl_append, List.foldl_cons, List.foldl_nil]
    rw [multiply_block_char rows cols ocols a b ii jj (32 * nk) 32 _ hlen hii hjj p q hq]
    rw [ih]
    by_cases hc : ii ≤ p ∧ p < min (ii + 32) rows ∧ jj ≤ q ∧ q < min (jj + 32) ocols
    · rw [if_pos hc, if_pos hc, if_pos hc]
      by_cases hk : 32 * nk ≤ cols
      · rw [show min (32 * nk) cols = 32 * nk by omega, add_assoc]
        have hcat := kSum_concat cols ocols a b p q 0 (32 * nk)
          (min (32 * nk + 32) cols - 32 * nk)
        rw [Nat.zero_add] at hcat
        rw [hcat, show 32 * nk + (min (32 * nk + 32) cols - 32 * nk) =
          min (32 * (nk + 1)) cols by omega]
      · rw [show min (32 * nk + 32) cols - 32 * nk = 0 by omega, kSum_len_zero, add_zero,
          show min (32 * nk) cols = min (32 * (nk + 1)) cols by omega]
    · rw [if_neg hc, if_neg hc, if_neg hc]

theorem block_jloop_char (rows cols ocols : ℕ) (a b : List ℚ) (ii : ℕ)
    (res : List ℚ) (hres : res.length = rows * ocols) (hii : ii ≤ rows) (nj : ℕ) :
    nj ≤ (ocols + 31) / 32 → ∀ p q, q < ocols →
    Matrix.mget ocols
      ((List.range nj).foldl
        (fun acc2 tj =>
          (List.range ((cols + 31) / 32)).foldl
            (fun acc3 tk =>
              Matrix.multiply_block rows cols ocols a b ii (32 * tj) (32 * tk) 32 acc3)
            acc2)
        res) p q =
      if ii ≤ p ∧ p < min (ii + 32) rows ∧ q < min (32 * nj) ocols then
        Matrix.mget ocols res p q + Matrix.kSum cols ocols a b p q 0 cols
      else Matrix.mget ocols res p q := by
  induction nj with
  | zero =>
    intro _ p q _
    simp only [List.range_zero, List.foldl_nil, Nat.mul_zero, Nat.zero_min]
    rw [if_neg (by omega)]
  | succ nj ih =>
    intro hnj p q hq
    have hnj' : nj ≤ (ocols + 31) / 32 := by omega
    have hjj : 32 * nj ≤ ocols := by omega
    have hlen : ((List.range nj).foldl
        (fun acc2 tj =>
          (List.range ((cols + 31) / 32)).foldl
            (fun acc3 tk =>
              Matrix.multiply_block rows cols ocols a b ii (32 * tj) (32 * tk) 32 acc3)
            acc2)
        res).length = rows * ocols := by
      have h := foldl_length_fix (List.range nj)
        (fun acc2 tj =>
          (List.range ((cols + 31) / 32)).foldl
            (fun acc3 tk =>
              Matrix.multiply_block rows cols ocols a b ii (32 * tj) (32 * tk) 32 acc3)
            acc2)
        (fun acc2 tj => foldl_length_fix _ _
          (fun acc3 tk => multiply_block_length rows cols ocols a b ii (32 * tj) (32 * tk)
            32 acc3) acc2)
        res
      rw [h, hres]
    rw [List.range_succ, List.foldl_append, List.foldl_cons, List.foldl_nil]
    rw [block_kloop_char rows cols ocols a b ii (32 * nj) _ hlen hii hjj
      ((cols + 31) / 32) p q hq]
    rw [show min (32 * ((cols + 31) / 32)) cols = cols by omega]
    rw [ih hnj' p q hq]
    by_cases hc1 : ii ≤ p ∧ p < min (ii + 32) rows ∧ 32 * nj ≤ q ∧ q < min (32 * nj + 32) ocols
    · rw [if_pos hc1, if_neg (by omega), if_pos (by omega)]
    · rw [if_neg hc1]
      by_cases hc2 : ii ≤ p ∧ p < min (ii + 32) rows ∧ q < min (32 * nj) ocols
      · rw [if_pos hc2, if_pos (by omega)]
      · rw [if_neg hc2, if_neg (by omega)]

theorem block_iloop_char (rows cols ocols : ℕ) (a b : List ℚ) (ni : ℕ) :
    ni ≤ (rows + 31) / 32 → ∀ p q, q < ocols →
    Matrix.mget ocols
      ((List.range ni).foldl
        (fun acc ti =>
          (List.range ((ocols + 31) / 32)).foldl
            (fun acc2 tj =>
              (List.range ((cols + 31) / 32)).foldl
                (fun acc3 tk =>
                  Matrix.multiply_block rows cols ocols a b (32 * ti) (32 * tj) (32 * tk)
                    32 acc3)
                acc2)
            acc)
        (Matrix.zero rows ocols)) p q =
      if p < min (32 * ni) rows ∧ q < ocols then
        Matrix.kSum cols ocols a b p q 0 cols
      else 0 := by
  induction ni with
  | zero =>
    intro _ p q _
    simp only [List.range_zero, List.foldl_nil, Nat.mul_zero, Nat.zero_min]
    rw [if_neg (by omega), mget_zero]
  | succ ni ih =>
    intro hni p q hq
    have hni' : ni ≤ (rows + 31) / 32 := by omega
    have hii : 32 * ni ≤ rows := by omega
    have hlen : ((List.range ni).foldl
        (fun acc ti =>
          (List.range ((ocols + 31) / 32)).foldl
            (fun acc2 tj =>
              (List.range ((cols + 31) / 32)).foldl
                (fun acc3 tk =>
                  Matrix.multiply_block rows cols ocols a b (32 * ti) (32 * tj) (32 * tk)
                    32 acc3)
                acc2)
            acc)
        (Matrix.zero rows ocols)).length = rows * ocols := by
      have h := foldl_length_fix (List.range ni)
        (fun acc ti =>
          (List.range ((ocols + 31) / 32)).foldl
            (fun acc2 tj =>
              (List.range ((cols + 31) / 32)).foldl
                (fun acc3 tk =>
                  Matrix.multiply_block rows cols ocols a b (32 * ti) (32 * tj) (32 * tk)
                    32 acc3)
                acc2)
            acc)
        (fun acc ti => foldl_length_fix _ _
          (fun acc2 tj => foldl_length_fix _ _
            (fun acc3 tk => multiply_block_length rows cols ocols a b (32 * ti) (32 * tj)
              (32 * tk) 32 acc3) acc2) acc)
        (Matrix.zero rows ocols)
      rw [h]
      simp [Matrix.zero]
    rw [List.range_succ, List.foldl_append, List.foldl_cons, List.foldl_nil]
    rw [block_jloop_char rows cols ocols a b (32 * ni) _ hlen hii
      ((ocols + 31) / 32) (by omega) p q hq]
    rw [show min (32 * ((ocols + 31) / 32)) ocols = ocols by omega]
    rw [ih hni' p q hq]
    by_cases hc1 : 32 * ni ≤ p ∧ p < min (32 * ni + 32) rows ∧ q < ocols
    · rw [if_pos hc1, if_neg (by omega), if_pos (by omega), zero_add]
    · rw [if_neg hc1]
      by_cases hc2 : p < min (32 * ni) rows ∧ q < ocols
      · rw [if_pos hc2, if_pos (by omega)]
      · rw [if_neg hc2, if_neg (by omega)]

theorem naive_inner_char (rows cols ocols : ℕ) (a b : List ℚ) (i0 : ℕ) (hi0 : i0 < rows)
    (acc : List ℚ) (hacc : acc.length = rows * ocols) (n : ℕ) :
    n ≤ ocols → ∀ p q, q < ocols →
    Matrix.mget ocols
      ((List.range n).foldl
        (fun acc2 j =>
          Matrix.mset ocols acc2 i0 j
            ((List.range cols).foldl
              (fun sum k => sum + Matrix.mget cols a i0 k * Matrix.mget ocols b k j) 0))
        acc) p q =
      if p = i0 ∧ q < n then
        (List.range cols).foldl
          (fun sum k => sum + Matrix.mget cols a p k * Matrix.mget ocols b k q) 0
      else Matrix.mget ocols acc p q := by
  induction n with
  | zero =>
    intro _ p q _
    simp only [List.range_zero, List.foldl_nil]
    rw [if_neg (by omega)]
  | succ n ih =>
    intro hn p q hq
    have hin : Matrix.index ocols i0 n < rows * ocols := index_lt_of_lt hi0 (by omega)
    have hlen : ((List.range n).foldl
        (fun acc2 j =>
          Matrix.mset ocols acc2 i0 j
            ((List.range cols).foldl
              (fun sum k => sum + Matrix.mget cols a i0 k * Matrix.mget ocols b k j) 0))
        acc).length = rows * ocols := by
      have h := foldl_length_fix (List.range n)
        (fun acc2 j =>
          Matrix.mset ocols acc2 i0 j
            ((List.range cols).foldl
              (fun sum k => sum + Matrix.mget cols a i0 k * Matrix.mget ocols b k j) 0))
        (fun acc2 j => by simp [Matrix.mset]) acc
      rw [h, hacc]
    rw [List.range_succ, List.foldl_append, List.foldl_cons, List.foldl_nil]
    rw [mget_mset ocols _ hq i0 n (by omega)]
    rw [ih (by omega) p q hq, hlen]
    by_cases hc1 : p = i0 ∧ q = n
    · obtain ⟨hp1, hq1⟩ := hc1
      subst hp1
      subst hq1
      rw [if_pos ⟨rfl, rfl, hin⟩, if_pos (by omega)]
    · rw [if_neg (fun hcon => hc1 ⟨hcon.1.symm, hcon.2.1.symm⟩)]
      by_cases hc2 : p = i0 ∧ q < n
      · rw [if_pos hc2, if_pos (by omega)]
      · rw [if_neg hc2, if_neg (by omega)]

theorem naive_outer_char (rows cols ocols : ℕ) (a b : List ℚ) (m : ℕ) :
    m ≤ rows → ∀ p q, q < ocols →
    Matrix.mget ocols
      ((List.range m).foldl
        (fun acc i =>
          (List.range ocols).foldl
            (fun acc2 j =>
              Matrix.mset ocols acc2 i j
                ((List.range cols).foldl
                  (fun sum k => sum + Matrix.mget cols a i k * Matrix.mget ocols b k j) 0))
            acc)
        (Matrix.zero rows ocols)) p q =
      if p < m ∧ q < ocols then
        (List.range cols).foldl
          (fun sum k => sum + Matrix.mget cols a p k * Matrix.mget ocols b k q) 0
      else 0 := by
  induction m with
  | zero =>
    intro _ p q _
    simp only [List.range_zero, List.foldl_nil]
    rw [if_neg (by omega), mget_zero]
  | succ m ih =>
    intro hm p q hq
    have hlen : ((List.range m).foldl
        (fun acc i =>
          (List.range ocols).foldl
            (fun acc2 j =>
              Matrix.mset ocols acc2 i j
                ((List.range cols).foldl
                  (fun sum k => sum + Matrix.mget cols a i k * Matrix.mget ocols b k j) 0))
            acc)
        (Matrix.zero rows ocols)).length = rows * ocols := by
      have h := foldl_length_fix (List.range m)
        (fun acc i =>
          (List.range ocols).foldl
            (fun acc2 j =>
              Matrix.mset ocols acc2 i j
                ((List.range cols).foldl
                  (fun sum k => sum + Matrix.mget cols a i k * Matrix.mget ocols b k j) 0))
            acc)
        (fun acc i => foldl_length_fix _ _ (fun acc2 j => by simp [Matrix.mset]) acc)
        (Matrix.zero rows ocols)
      rw [h]
      simp [Matrix.zero]
    rw [List.range_succ, List.foldl_append, List.foldl_cons, List.foldl_nil]
    rw [naive_inner_char rows cols ocols a b m (by omega) _ hlen ocols (le_refl ocols)
      p q hq]
    rw [ih (by omega) p q hq]
    by_cases hc1 : p = m ∧ q < ocols
    · rw [if_pos hc1, if_pos (by omega)]
    · rw [if_neg hc1]
      by_cases hc2 : p < m ∧ q < ocols
      · rw [if_pos hc2, if_pos (by omega)]
      · rw [if_neg hc2, if_neg (by omega)]

theorem multiply_blocked_length (rows cols ocols : ℕ) (a b : List ℚ) :
    (Matrix.multiply_blocked rows cols ocols a b).length = rows * ocols := by
  rw [Matrix.multiply_blocked]
  have h := foldl_length_fix (List.range ((rows + 31) / 32))
    (fun acc ti =>
      (List.range ((ocols + 31) / 32)).foldl
        (fun acc2 tj =>
          (List.range ((cols + 31) / 32)).foldl
            (fun acc3 tk =>
              Matrix.multiply_block rows cols ocols a b (32 * ti) (32 * tj) (32 * tk)
                32 acc3)
            acc2)
        acc)
    (fun acc ti => foldl_length_fix _ _
      (fun acc2 tj => foldl_length_fix _ _
        (fun acc3 tk => multiply_block_length rows cols ocols a b (32 * ti) (32 * tj)
          (32 * tk) 32 acc3) acc2) acc)
    (Matrix.zero rows ocols)
  rw [h]
  simp [Matrix.zero]

theorem multiply_naive_length (rows cols ocols : ℕ) (a b : List ℚ) :
    (Matrix.multiply_naive rows cols ocols a b).length = rows * ocols := by
  rw [Matrix.multiply_naive]
  have h := foldl_length_fix (List.range rows)
    (fun acc i =>
      (List.range ocols).foldl
        (fun acc2 j =>
          Matrix.mset ocols acc2 i j
            ((List.range cols).foldl
              (fun sum k => sum + Matrix.mget cols a i k * Matrix.mget ocols b k j) 0))
        acc)
    (fun acc i => foldl_length_fix _ _ (fun acc2 j => by simp [Matrix.mset]) acc)
    (Matrix.zero rows ocols)
  rw [h]
  simp [Matrix.zero]

/-- C6: the cache-blocked product coincides, entry for entry and as a
whole buffer, with the naive triple-loop product — exactly, over any
entries, because over an exact field both accumulation orders produce the
same sums; and `operator*` dispatches to the blocked algorithm whenever
all three dimensions exceed 32 (the source's dispatch threshold is in
fact `> 8`, which that implies). -/
theorem claim_C6 :
    (∀ (rows cols ocols : ℕ) (a b : List ℚ),
      Matrix.multiply_blocked rows cols ocols a b =
        Matrix.multiply_naive rows cols ocols a b) ∧
    (∀ rows cols ocols : ℕ,
      32 < rows ∧ 32 < cols ∧ 32 < ocols → Matrix.usesBlocked rows cols ocols = true) ∧
    (∀ (rows cols ocols : ℕ) (a b : List ℚ),
      Matrix.usesBlocked rows cols ocols = true →
        Matrix.matMul rows cols ocols a b = Matrix.multiply_blocked rows cols ocols a b) := by
  refine ⟨?_, ?_, ?_⟩
  · intro rows cols ocols a b
    apply List.ext_getElem
    · rw [multiply_blocked_length, multiply_naive_length]
    · intro i h1 h2
      rw [multiply_blocked_length] at h1
      have hoc : 0 < ocols := by
        rcases Nat.eq_zero_or_pos ocols with h | h
        · subst h
          simp at h1
        · exact h
      have hq : i % ocols < ocols := Nat.mod_lt i hoc
      have hp : i / ocols < rows := Nat.div_lt_of_lt_mul (by rwa [Nat.mul_comm] at h1)
      have hidx : Matrix.index ocols (i / ocols) (i % ocols) = i := by
        rw [Matrix.index, Nat.add_comm, Nat.mod_add_div' i ocols]
      have hb : Matrix.mget ocols (Matrix.multiply_blocked rows cols ocols a b)
          (i / ocols) (i % ocols) =
          Matrix.kSum cols ocols a b (i / ocols) (i % ocols) 0 cols := by
        rw [Matrix.multiply_blocked]
        rw [block_iloop_char rows cols ocols a b ((rows + 31) / 32) (le_refl _)
          (i / ocols) (i % ocols) hq]
        rw [if_pos ⟨by omega, hq⟩]
      have hn : Matrix.mget ocols (Matrix.multiply_naive rows cols ocols a b)
          (i / ocols) (i % ocols) =
          Matrix.kSum cols ocols a b (i / ocols) (i % ocols) 0 cols := by
        rw [Matrix.multiply_naive]
        rw [naive_outer_char rows cols ocols a b rows (le_refl rows)
          (i / ocols) (i % ocols) hq]
        rw [if_pos ⟨hp, hq⟩, kSum_full]
      have hof : (Matrix.multiply_blocked rows cols ocols a b)[i] =
          (Matrix.multiply_naive rows cols ocols a b)[i] := by
        rw [← List.getD_eq_getElem (Matrix.multiply_blocked rows cols ocols a b) 0,
          ← List.getD_eq_getElem (Matrix.multiply_naive rows cols ocols a b) 0]
        have e1 : (Matrix.multiply_blocked rows cols ocols a b).getD i 0 =
            Matrix.mget ocols (Matrix.multiply_blocked rows cols ocols a b)
              (i / ocols) (i % ocols) := by
          rw [Matrix.mget, hidx]
        have e2 : (Matrix.multiply_naive rows cols ocols a b).getD i 0 =
            Matrix.mget ocols (Matrix.multiply_naive rows cols ocols a b)
              (i / ocols) (i % ocols) := by
          rw [Matrix.mget, hidx]
        rw [e1, e2, hb, hn]
      exact hof
  · intro rows cols ocols h
    rw [Matrix.usesBlocked]
    simp only [Bool.and_eq_true, decide_eq_true_eq]
    omega
  · intro rows cols ocols a b h
    rw [Matrix.matMul, if_pos h]

/- ------------------------------------------------------------------ -/
/- C5: singular-matrix fallback of inverse().                          -/
/- ------------------------------------------------------------------ -/

/-- C5, evaluated at the failing input: the 3x3 matrix
`[[1,1,1],[2,2,2],[0,1,2]]` (second row twice the first) has determinant
exactly `0` — `Matrix::determinant` returns `0` for it — yet
`Matrix::inverse` (via `inverse_3`) returns the nonzero matrix
`[[2,-1,0],[-4,2,0],[2,-1,0]]` instead of the all-zero matrix the claim
(and the spec's "same singularity check as determinant") requires: the
guard determinant inside `inverse_3`,
`m00*c00 - m01*c10 + m02*c20`, pairs row-0 entries with column-0
cofactors and evaluates to `1` here, so the singular branch is not
taken. -/
theorem claim_C5_failing_input :
    Matrix.determinant 3 [1, 1, 1, 2, 2, 2, 0, 1, 2] = 0 ∧
    Matrix.inverse 3 [1, 1, 1, 2, 2, 2, 0, 1, 2] = [2, -1, 0, -4, 2, 0, 2, -1, 0] ∧
    Matrix.inverse 3 [1, 1, 1, 2, 2, 2, 0, 1, 2] ≠ Matrix.zero 3 3 := by
  have hdet : Matrix.determinant 3 [(1 : ℚ), 1, 1, 2, 2, 2, 0, 1, 2] = 0 := by
    norm_num [Matrix.determinant, Matrix.mget, Matrix.index]
  have hinv : Matrix.inverse 3 [(1 : ℚ), 1, 1, 2, 2, 2, 0, 1, 2] =
      [2, -1, 0, -4, 2, 0, 2, -1, 0] := by
    norm_num [Matrix.inverse, Matrix.inverse_3, Matrix.mget, Matrix.index,
      PRECISION_EPSILON, abs_le]
  refine ⟨hdet, hinv, ?_⟩
  rw [hinv]
  intro h
  have := congrArg (fun l => l.getD 0 (0 : ℚ)) h
  simp [Matrix.zero, getD_replicate] at this

end pbrt.math
